import Mathlib

/-!
Verification of the AppTrust PROD rollback utility
(`scripts/apptrust_rollback.py`).

The development shallowly embeds the script's pure core: the semantic
version parser and comparator, the eligibility filter
(`get_prod_versions`), the successor selector (`pick_next_latest`) and
the orchestrator (`rollback_in_prod`), the latter as a pure function
from the registry response to the trace of client calls it issues.
Strings are treated through their character lists; Python's `str`
operations are modelled on ASCII data, which covers every string the
script manipulates (versions, tags, statuses).
-/

/-- Code point of a character (Python compares strings by code point). -/
def cp (c : Char) : Nat := c.toNat

/-- Python `<` on strings restricted to one character: code-point order. -/
def charLt (c d : Char) : Bool := cp c < cp d

/-- Python lexicographic `<` on strings, over the character lists. -/
def lexLt : List Char → List Char → Bool
  | [], [] => false
  | [], _ :: _ => true
  | _ :: _, [] => false
  | c :: cs, d :: ds => if charLt c d then true else if charLt d c then false else lexLt cs ds

/-- Python `x < y` on strings. -/
def pyStrLt (x y : String) : Bool := lexLt x.data y.data

/-- ASCII decimal digit (Python `str.isdigit` restricted to ASCII input,
which is all the semver grammar admits). -/
def isDig (c : Char) : Bool := 48 ≤ cp c && cp c ≤ 57

/-- Value of a decimal digit character. -/
def digVal (c : Char) : Nat := cp c - 48

/-- Accumulating base-10 value of a digit list. -/
def digitsValFrom (a : Nat) : List Char → Nat
  | [] => a
  | c :: cs => digitsValFrom (10 * a + digVal c) cs

/-- Base-10 value of a digit list (Python `int` on a digit string). -/
def digitsVal (l : List Char) : Nat := digitsValFrom 0 l

/-- Python `s.isdigit()` on ASCII strings: nonempty and all digits. -/
def pyIsDigit (s : String) : Bool := !s.data.isEmpty && s.data.all isDig

/-- Python `int(s)` for a digit string. -/
def numeral_val (s : String) : Nat := digitsVal s.data

/-- ASCII letter. -/
def isLetter (c : Char) : Bool := (65 ≤ cp c && cp c ≤ 90) || (97 ≤ cp c && cp c ≤ 122)

/-- Character class `[0-9a-zA-Z-]` of the semver grammar. -/
def isIdentCh (c : Char) : Bool := isDig c || isLetter c || cp c == 45

/-- Python regex `\s` on ASCII input. -/
def isSpaceCh (c : Char) : Bool :=
  cp c == 32 || cp c == 9 || cp c == 10 || cp c == 13 || cp c == 11 || cp c == 12

/-- Parsed semantic version, mirroring the `SemVer` dataclass:
major, minor, patch, prerelease identifiers, original string.
(The build-metadata group of the regex is matched but not retained,
exactly as in the dataclass.) -/
structure SemVer where
  major : Nat
  minor : Nat
  patch : Nat
  prerelease : List String
  original : String
deriving DecidableEq

/-- The numeric-field alternative `0|[1-9]\d*` of `SEMVER_RE`, consuming
greedily from the front; returns the value and the rest. Greediness is
exact here: a digit can never start the regex's follow set (`\.`, `-`,
`+`, whitespace or end), so the regex admits no other division. -/
def parse_num_field : List Char → Option (Nat × List Char)
  | [] => none
  | c :: cs =>
    if cp c == 48 then some (0, cs)
    else if 49 ≤ cp c && cp c ≤ 57 then
      some (digitsVal (c :: cs.takeWhile isDig), cs.dropWhile isDig)
    else none

/-- `.split(".")` on a character list. -/
def splitDots : List Char → List (List Char)
  | [] => [[]]
  | c :: cs =>
    if cp c == 46 then [] :: splitDots cs
    else match splitDots cs with
      | [] => [[c]]
      | p :: ps => (c :: p) :: ps

/-- One prerelease identifier of `SEMVER_RE`:
`0|[1-9]\d*|[a-zA-Z-][0-9a-zA-Z-]*`. -/
def valid_pre_ident : List Char → Bool
  | [] => false
  | c :: cs =>
    if isDig c then cs.all isDig && (!(cp c == 48) || cs.isEmpty)
    else (isLetter c || cp c == 45) && cs.all isIdentCh

/-- One build segment of `SEMVER_RE`: `[0-9a-zA-Z-]+`. -/
def valid_build_seg (l : List Char) : Bool := !l.isEmpty && l.all isIdentCh

/-- The optional `-(prerelease)` part of `SEMVER_RE`. The regex's
prerelease group can only be followed by `+`, whitespace or the end, so
it must cover the maximal run of `[0-9a-zA-Z-.]`; taking that run and
validating its dot-separated pieces is therefore exact. -/
def parse_pre_part : List Char → Option (List String × List Char)
  | [] => some ([], [])
  | c :: cs =>
    if cp c == 45 then
      let run := cs.takeWhile (fun d => isIdentCh d || cp d == 46)
      let rest := cs.dropWhile (fun d => isIdentCh d || cp d == 46)
      let pieces := splitDots run
      if pieces.all valid_pre_ident then some (pieces.map (fun p => String.mk p), rest)
      else none
    else some ([], c :: cs)

/-- The optional `+(build)` part of `SEMVER_RE` (matched, not retained). -/
def parse_build_part : List Char → Option (List Char)
  | [] => some []
  | c :: cs =>
    if cp c == 43 then
      let run := cs.takeWhile (fun d => isIdentCh d || cp d == 46)
      let rest := cs.dropWhile (fun d => isIdentCh d || cp d == 46)
      if (splitDots run).all valid_build_seg then some rest
      else none
    else some (c :: cs)

/-- `SemVer.parse`: match `SEMVER_RE` against the whole string
(`^\s*v?MAJOR.MINOR.PATCH[-PRE][+BUILD]\s*$`) and build the dataclass. -/
def SemVer.parse (version : String) : Option SemVer :=
  let cs0 := version.data.dropWhile isSpaceCh
  let cs1 := match cs0 with
    | c :: rest => if cp c == 118 then rest else cs0
    | [] => []
  match parse_num_field cs1 with
  | none => none
  | some (maj, r1) =>
    match r1 with
    | [] => none
    | c1 :: r2 =>
      if cp c1 == 46 then
        match parse_num_field r2 with
        | none => none
        | some (mino, r3) =>
          match r3 with
          | [] => none
          | c2 :: r4 =>
            if cp c2 == 46 then
              match parse_num_field r4 with
              | none => none
              | some (pat, r5) =>
                match parse_pre_part r5 with
                | none => none
                | some (pre, r6) =>
                  match parse_build_part r6 with
                  | none => none
                  | some r7 =>
                    if r7.all isSpaceCh then some ⟨maj, mino, pat, pre, version⟩ else none
            else none
      else none

/-- One step of the prerelease-identifier comparison loop of
`compare_semver` (the body run on a pair `(at, bt)` from `zip`). -/
def cmpIdent (x y : String) : Int :=
  if x = y then 0
  else if pyIsDigit x && pyIsDigit y then
    if numeral_val x < numeral_val y then -1
    else if numeral_val y < numeral_val x then 1
    else 0
  else if pyIsDigit x then -1
  else if pyIsDigit y then 1
  else if pyStrLt x y then -1 else 1

/-- The `zip` loop plus the final length comparison of `compare_semver`:
first differing identifier decides, else the shorter sequence is lower. -/
def cmpPre : List String → List String → Int
  | [], [] => 0
  | [], _ :: _ => -1
  | _ :: _, [] => 1
  | x :: xs, y :: ys => if cmpIdent x y = 0 then cmpPre xs ys else cmpIdent x y

/-- `compare_semver(a, b)`: major, minor, patch numerically; absence of
prerelease wins; then the identifier loop. -/
def compare_semver (a b : SemVer) : Int :=
  if a.major ≠ b.major then if a.major < b.major then -1 else 1
  else if a.minor ≠ b.minor then if a.minor < b.minor then -1 else 1
  else if a.patch ≠ b.patch then if a.patch < b.patch then -1 else 1
  else if a.prerelease.isEmpty && !b.prerelease.isEmpty then 1
  else if !a.prerelease.isEmpty && b.prerelease.isEmpty then -1
  else cmpPre a.prerelease b.prerelease

/-- Stable insertion into a list sorted by the Boolean relation `le`:
the new element goes before the first element it relates to. With
`le x y` true on ties this is the insertion step of a stable sort,
the specification of Python's `list.sort`. -/
def insertS {α : Type} (le : α → α → Bool) (x : α) : List α → List α
  | [] => [x]
  | y :: ys => if le x y then x :: y :: ys else y :: insertS le x ys

/-- Stable insertion sort by `le` (Python `list.sort` semantics: a
stable sort by the given order). -/
def insSort {α : Type} (le : α → α → Bool) : List α → List α
  | [] => []
  | x :: xs => insertS le x (insSort le xs)

/-- Descending order used by `sort_versions_by_semver_desc`:
`key=lambda t: t[0], reverse=True` over `SemVer.__lt__`, i.e.
`a` may precede `b` whenever `compare_semver a b >= 0` (Python's
`reverse=True` keeps ties in input order). -/
def semverDescLe (a b : SemVer × String) : Bool := 0 ≤ compare_semver a.1 b.1

/-- Compare two version strings through `SemVer.parse` and
`compare_semver` (statement vocabulary for the comparator claims). -/
def cmp_str (s t : String) : Option Int :=
  match SemVer.parse s, SemVer.parse t with
  | some a, some b => some (compare_semver a b)
  | _, _ => none

/-- `sort_versions_by_semver_desc`: keep the parsable strings paired
with their parses, sort descending by semver (stable), return strings. -/
def sort_versions_by_semver_desc (version_strings : List String) : List String :=
  let parsed := version_strings.filterMap (fun v => (SemVer.parse v).map (fun sv => (sv, v)))
  (insSort semverDescLe parsed).map (fun t => t.2)

/-- `TRUSTED_RELEASE` constant. -/
def TRUSTED : String := "TRUSTED_RELEASE"

/-- `RELEASED` constant. -/
def RELEASED : String := "RELEASED"

/-- `QUARANTINE_TAG` constant. -/
def QUARANTINE_TAG : String := "quarantine"

/-- `LATEST_TAG` constant. -/
def LATEST_TAG : String := "latest"

/-- `BACKUP_BEFORE_LATEST` property key. -/
def BACKUP_BEFORE_LATEST : String := "original_tag_before_latest"

/-- `BACKUP_BEFORE_QUARANTINE` property key. -/
def BACKUP_BEFORE_QUARANTINE : String := "original_tag_before_quarantine"

/-- One raw entry of the `listVersions` response consumed by
`get_prod_versions`: `version`, `tag` (JSON `null` as `none`) and
`release_status`, already decoded from JSON as strings. -/
structure RawEntry where
  version : String
  tag : Option String
  release_status : String
deriving DecidableEq

/-- A normalized entry as built by `get_prod_versions`:
`{"version": ver, "tag": tag_str, "release_status": rs}`. -/
structure Entry where
  version : String
  tag : String
  release_status : String
deriving DecidableEq

/-- Python `str.upper` on ASCII data. -/
def py_upper (s : String) : String :=
  String.mk (s.data.map (fun c => if 97 ≤ cp c && cp c ≤ 122 then Char.ofNat (cp c - 32) else c))

/-- The normalization loop of `get_prod_versions`: stringify the tag
(`null` becomes `""`), uppercase the status, keep the entry when the
status is `TRUSTED_RELEASE` or `RELEASED`. -/
def norm_entries (versions : List RawEntry) : List Entry :=
  versions.filterMap (fun v =>
    let tag_str := v.tag.getD ""
    let rs := py_upper v.release_status
    if rs == TRUSTED || rs == RELEASED then some ⟨v.version, tag_str, rs⟩ else none)

/-- Index of the last occurrence of `v` in `order` (the Python dict
comprehension `{ver: i for i, ver in enumerate(order)}` keeps the last
index of a duplicated string). -/
def lastIdx : List String → String → Option Nat
  | [], _ => none
  | x :: xs, v =>
    match lastIdx xs v with
    | some j => some (j + 1)
    | none => if x == v then some 0 else none

/-- The sort key of the final sort of `get_prod_versions`:
`idx.get(x["version"], 10**9)`. -/
def prodKey (order : List String) (e : Entry) : Nat := (lastIdx order e.version).getD (10 ^ 9)

/-- `get_prod_versions` (pure part, applied to the decoded `versions`
field of the response): normalize and filter, compute the semver order
of the version strings, then stably sort the entries by their position
in that order, unparsable versions keyed `10**9`. -/
def get_prod_versions (versions : List RawEntry) : List Entry :=
  let norm := norm_entries versions
  let order := sort_versions_by_semver_desc (norm.map (fun v => v.version))
  insSort (fun x y => prodKey order x ≤ prodKey order y) norm

/-- The string order `get_prod_versions` sorts by (lemma vocabulary). -/
def prod_order (versions : List RawEntry) : List String :=
  sort_versions_by_semver_desc ((norm_entries versions).map (fun v => v.version))

/-- The entries surviving the two skip conditions of `pick_next_latest`
(lemma vocabulary mirroring its first loop). -/
def survivorsOf (l : List Entry) (excl : String) : List Entry :=
  l.filter (fun v => !(v.version == excl) && !(v.tag == QUARANTINE_TAG))

/-- `dup.setdefault(key, []).append(v)` on an association list. -/
def dup_insert : List (String × List Entry) → String → Entry → List (String × List Entry)
  | [], k, v => [(k, [v])]
  | (k', vs) :: rest, k, v =>
    if k' == k then (k', vs ++ [v]) :: rest else (k', vs) :: dup_insert rest k v

/-- Dictionary lookup on an association list. -/
def dup_get : List (String × List Entry) → String → Option (List Entry)
  | [], _ => none
  | (k', vs) :: rest, k => if k' == k then some vs else dup_get rest k

/-- The first loop of `pick_next_latest`: group the surviving entries
(excluded version and quarantined entries skipped) by version string. -/
def pick_dup (l : List Entry) (excl : String) : List (String × List Entry) :=
  l.foldl (fun d v =>
    if v.version == excl then d
    else if v.tag == QUARANTINE_TAG then d
    else dup_insert d v.version v) []

/-- The second loop of `pick_next_latest`: distinct version strings in
scan order, skipping the excluded version, keeping those present in
`dup` and not yet seen. -/
def ordered_scan (dup : List (String × List Entry)) : List Entry → String → List String → List String
  | [], _, _ => []
  | v :: vs, excl, seen =>
    if v.version == excl then ordered_scan dup vs excl seen
    else if (dup_get dup v.version).isSome && !(seen.contains v.version) then
      v.version :: ordered_scan dup vs excl (v.version :: seen)
    else ordered_scan dup vs excl seen

/-- `pick_next_latest(sorted_prod_versions, exclude_version)`. The
final `for` loop returns on its first iteration, so only the head of
`ordered` matters; `cands` is nonempty whenever its key is in `dup`,
so `cands.head?` models `cands[0]` exactly on reachable inputs. -/
def pick_next_latest (sorted_prod_versions : List Entry) (exclude_version : String) : Option Entry :=
  let dup := pick_dup sorted_prod_versions exclude_version
  if dup.isEmpty then none
  else
    match ordered_scan dup sorted_prod_versions exclude_version [] with
    | [] => none
    | ver :: _ =>
      let cands := (dup_get dup ver).getD []
      let trusted := cands.filter (fun c => c.release_status == TRUSTED)
      match trusted with
      | t :: _ => some t
      | [] => cands.head?

/-- Lemma vocabulary: the first (in scan order) version string that is
not the excluded one and has a surviving entry; `pick_next_latest`
selects its entry. -/
def qualifyingOf (l : List Entry) (excl : String) : List Entry :=
  l.filter (fun v =>
    !(v.version == excl) && (survivorsOf l excl).any (fun s => s.version == v.version))

/-- One client call issued by the orchestrator. -/
inductive Call where
  | list : Call
  | rollback (version : String) (from_stage : String) : Call
  | patch (version : String) (tag : String) (prop_key : String) (prop_val : String) : Call
deriving DecidableEq

/-- `backup_tag_then_patch`: in dry-run mode only log (no call), else
issue the tag-patch recording the prior tag under the backup key. -/
def backup_tag_then_patch (version : String) (backup_prop_key : String) (new_tag : String)
    (current_tag : String) (dry_run : Bool) : List Call :=
  if dry_run then [] else [Call.patch version new_tag backup_prop_key current_tag]

/-- `by_version = {v["version"]: v for v in prod_versions}`: insertion
into a one-value-per-key association list, later insertions replacing
earlier ones, as in a Python dict comprehension. -/
def dict_insert : List (String × Entry) → String → Entry → List (String × Entry)
  | [], k, v => [(k, v)]
  | (k', v') :: rest, k, v =>
    if k' == k then (k, v) :: rest else (k', v') :: dict_insert rest k v

/-- Dictionary lookup (`by_version.get(target_version)`). -/
def dict_get : List (String × Entry) → String → Option Entry
  | [], _ => none
  | (k', v) :: rest, k => if k' == k then some v else dict_get rest k

/-- Build the `by_version` dict of `rollback_in_prod`. -/
def by_version_of (prod_versions : List Entry) : List (String × Entry) :=
  prod_versions.foldl (fun d v => dict_insert d v.version v) []

/-- `rollback_in_prod(client, app_key, target_version, dry_run)`, as a
pure function from the decoded `listVersions` response to the trace of
client calls issued and the outcome. `rollback_ok` stands for the
success of the remote `rollback_application_version` call (its failure
raises, aborting the run); tag-patches are modelled as succeeding, so
the `.ok` outcome is the run in which no call failed. -/
def rollback_in_prod (entries : List RawEntry) (target_version : String)
    (dry_run : Bool) (rollback_ok : Bool) : List Call × Except String Unit :=
  let prod_versions := get_prod_versions entries
  let by_version := by_version_of prod_versions
  match dict_get by_version target_version with
  | none => ([Call.list], Except.error ("Target version not found in PROD set: " ++ target_version))
  | some target =>
    let c1 : List Call := if dry_run then [] else [Call.rollback target_version "PROD"]
    if !dry_run && !rollback_ok then
      (Call.list :: c1, Except.error "AppTrust rollback API call failed")
    else
      let current_tag := target.tag
      let had_latest := current_tag == LATEST_TAG
      let c2 := backup_tag_then_patch target_version BACKUP_BEFORE_QUARANTINE QUARANTINE_TAG current_tag dry_run
      if had_latest then
        match pick_next_latest prod_versions target_version with
        | none => (Call.list :: (c1 ++ c2), Except.ok ())
        | some next_candidate =>
          let c3 := backup_tag_then_patch next_candidate.version BACKUP_BEFORE_LATEST LATEST_TAG
            next_candidate.tag dry_run
          (Call.list :: (c1 ++ c2 ++ c3), Except.ok ())
      else (Call.list :: (c1 ++ c2), Except.ok ())

/-- Modelled from the spec: the effect of one client call on the
registry state (§6 `patchVersion` updates the `tag` of the version
resource addressed by its version string; `listVersions` and
`rollbackVersion` do not change tags). The registry server itself is an
external collaborator, absent from this repository. -/
def apply_call (entries : List RawEntry) : Call → List RawEntry
  | Call.patch v tg _ _ =>
    entries.map (fun e => if e.version == v then { e with tag := some tg } else e)
  | _ => entries

/-- Modelled from the spec: registry state after a trace of calls. -/
def apply_calls (entries : List RawEntry) (cs : List Call) : List RawEntry :=
  cs.foldl apply_call entries


/-- The class an identifier falls in for the comparison loop: numeric
identifiers by value, the rest by string. -/
def identKey (s : String) : Nat ⊕ String :=
  if pyIsDigit s then Sum.inl (numeral_val s) else Sum.inr s

/-- Three-way comparison of identifier keys: numbers below strings,
numbers by value, strings lexicographically. -/
def keyCmp : Nat ⊕ String → Nat ⊕ String → Int
  | Sum.inl m, Sum.inl n => if m < n then -1 else if n < m then 1 else 0
  | Sum.inl _, Sum.inr _ => -1
  | Sum.inr _, Sum.inl _ => 1
  | Sum.inr s, Sum.inr t => if s = t then 0 else if pyStrLt s t then -1 else 1

/-- Combine two comparison results lexicographically. -/
def lexC (c d : Int) : Int := if c = 0 then d else c

/-- Three-way comparison on naturals. -/
def natCmp (m n : Nat) : Int := if m < n then -1 else if n < m then 1 else 0

/-- The prerelease comparison of `compare_semver` including the
empty-versus-nonempty special cases. -/
def preEmptyCmp (p q : List String) : Int :=
  if p.isEmpty && !q.isEmpty then 1
  else if !p.isEmpty && q.isEmpty then -1
  else cmpPre p q

/-- Modelled from the spec: a numeric identifier (digits only). -/
def spec_numeric (s : String) : Bool := !s.data.isEmpty && s.data.all isDig

/-- Modelled from the spec (§4.1 rule 3): two numeric identifiers
compare numerically; a numeric identifier is always lower precedence
than an alphanumeric one; two alphanumeric identifiers compare by
ASCII/lexical order. -/
def spec_ident_lt (x y : String) : Bool :=
  if spec_numeric x && spec_numeric y then numeral_val x < numeral_val y
  else if spec_numeric x then true
  else if spec_numeric y then false
  else pyStrLt x y

/-- Modelled from the spec: identifier equality under rule 3 (numeric
identifiers by value, alphanumeric ones as strings). -/
def spec_ident_eq (x y : String) : Bool :=
  if spec_numeric x && spec_numeric y then numeral_val x == numeral_val y else x == y

/-- Modelled from the spec (§4.1 rules 3-4): identifier-by-identifier
in sequence order, the first differing identifier decides; a strict
prefix is lower precedence. -/
def spec_pre_lt : List String → List String → Bool
  | [], [] => false
  | [], _ :: _ => true
  | _ :: _, [] => false
  | x :: xs, y :: ys => spec_ident_lt x y || (spec_ident_eq x y && spec_pre_lt xs ys)

/-- Modelled from the spec (§4.1 rules 1-2): major, minor, patch
numerically; a version with no prerelease is greater than one with a
prerelease, core fields being equal; rule 5: build metadata absent. -/
def spec_lt (a b : SemVer) : Bool :=
  if a.major ≠ b.major then a.major < b.major
  else if a.minor ≠ b.minor then a.minor < b.minor
  else if a.patch ≠ b.patch then a.patch < b.patch
  else if a.prerelease.isEmpty && !b.prerelease.isEmpty then false
  else if !a.prerelease.isEmpty && b.prerelease.isEmpty then true
  else spec_pre_lt a.prerelease b.prerelease

/-- Sort key relation used by `get_prod_versions`. -/
def prodLe (order : List String) (x y : Entry) : Bool := prodKey order x ≤ prodKey order y

/-! ### Order facts about the lexicographic string comparison -/

theorem cp_inj {c d : Char} (h : cp c = cp d) : c = d :=
  Char.eq_of_val_eq (UInt32.ext h)

theorem lexLt_cons_iff (x y : Char) (xs ys : List Char) :
    lexLt (x :: xs) (y :: ys) = true ↔ cp x < cp y ∨ (cp x = cp y ∧ lexLt xs ys = true) := by
  by_cases h1 : cp x < cp y
  · simp [lexLt, charLt, h1]
  · by_cases h2 : cp y < cp x
    · have hx : charLt x y = false := by simp [charLt, h1]
      have hy : charLt y x = true := by simp [charLt, h2]
      simp [lexLt, hx, hy]
      exact ⟨Nat.le_of_lt h2, fun h => absurd h (by omega)⟩
    · have h3 : cp x = cp y := Nat.le_antisymm (Nat.not_lt.mp h2) (Nat.not_lt.mp h1)
      have hx : charLt x y = false := by simp [charLt, h1]
      have hy : charLt y x = false := by simp [charLt, h2]
      simp [lexLt, hx, hy, h3]

theorem lexLt_irrefl : ∀ l : List Char, lexLt l l = false
  | [] => rfl
  | c :: cs => by
    have h : charLt c c = false := by simp [charLt]
    simp [lexLt, h, lexLt_irrefl cs]

theorem lexLt_trans : ∀ a b c : List Char,
    lexLt a b = true → lexLt b c = true → lexLt a c = true
  | [], [], _, h1, _ => by simp [lexLt] at h1
  | [], _ :: _, [], _, h2 => by simp [lexLt] at h2
  | [], _ :: _, _ :: _, _, _ => rfl
  | _ :: _, [], _, h1, _ => by simp [lexLt] at h1
  | _ :: _, _ :: _, [], _, h2 => by simp [lexLt] at h2
  | x :: xs, y :: ys, z :: zs, h1, h2 => by
    rw [lexLt_cons_iff] at h1 h2 ⊢
    rcases h1 with h1 | ⟨h1e, h1r⟩
    · rcases h2 with h2 | ⟨h2e, _⟩
      · exact Or.inl (Nat.lt_trans h1 h2)
      · exact Or.inl (h2e ▸ h1)
    · rcases h2 with h2 | ⟨h2e, h2r⟩
      · exact Or.inl (h1e ▸ h2)
      · exact Or.inr ⟨h1e.trans h2e, lexLt_trans xs ys zs h1r h2r⟩

theorem lexLt_total : ∀ a b : List Char, a ≠ b → lexLt a b = true ∨ lexLt b a = true
  | [], [], h => absurd rfl h
  | [], _ :: _, _ => Or.inl rfl
  | _ :: _, [], _ => Or.inr rfl
  | x :: xs, y :: ys, h => by
    rw [lexLt_cons_iff, lexLt_cons_iff]
    by_cases hxy : cp x = cp y
    · have hx : x = y := cp_inj hxy
      subst hx
      have hne : xs ≠ ys := fun he => h (he ▸ rfl)
      rcases lexLt_total xs ys hne with ht | ht
      · exact Or.inl (Or.inr ⟨rfl, ht⟩)
      · exact Or.inr (Or.inr ⟨rfl, ht⟩)
    · rcases Nat.lt_or_ge (cp x) (cp y) with hlt | hge
      · exact Or.inl (Or.inl hlt)
      · exact Or.inr (Or.inl (Nat.lt_of_le_of_ne hge (fun he => hxy he.symm)))

theorem lexLt_asymm {a b : List Char} (h : lexLt a b = true) : lexLt b a = false := by
  by_contra hc
  have hba : lexLt b a = true := by
    cases hb : lexLt b a
    · exact absurd hb hc
    · rfl
  have := lexLt_trans a b a h hba
  rw [lexLt_irrefl] at this
  exact Bool.false_ne_true this

theorem pyStrLt_irrefl (s : String) : pyStrLt s s = false := lexLt_irrefl s.data

theorem pyStrLt_trans {a b c : String} (h1 : pyStrLt a b = true) (h2 : pyStrLt b c = true) :
    pyStrLt a c = true := lexLt_trans a.data b.data c.data h1 h2

theorem pyStrLt_total {a b : String} (h : a ≠ b) : pyStrLt a b = true ∨ pyStrLt b a = true :=
  lexLt_total a.data b.data (fun he => h (by cases a; cases b; cases he; rfl))

theorem pyStrLt_asymm {a b : String} (h : pyStrLt a b = true) : pyStrLt b a = false :=
  lexLt_asymm h

theorem pyStrLt_ne {a b : String} (h : pyStrLt a b = true) : a ≠ b := by
  rintro rfl
  rw [pyStrLt_irrefl] at h
  exact Bool.false_ne_true h

/-! ### Arithmetic facts about base-10 values of digit strings -/

theorem digitsValFrom_eq : ∀ (l : List Char) (a : Nat),
    digitsValFrom a l = a * 10 ^ l.length + digitsVal l
  | [], a => by
    show a = a * 10 ^ (0 : Nat) + digitsVal []
    have h : digitsVal ([] : List Char) = 0 := rfl
    rw [h, pow_zero, Nat.mul_one, Nat.add_zero]
  | c :: cs, a => by
    have h1 : digitsValFrom a (c :: cs) = digitsValFrom (10 * a + digVal c) cs := rfl
    have h2 : digitsVal (c :: cs) = digitsValFrom (10 * 0 + digVal c) cs := rfl
    rw [h1, digitsValFrom_eq cs (10 * a + digVal c), h2,
      digitsValFrom_eq cs (10 * 0 + digVal c), List.length_cons]
    ring

theorem digitsVal_cons (c : Char) (cs : List Char) :
    digitsVal (c :: cs) = digVal c * 10 ^ cs.length + digitsVal cs := by
  have h2 : digitsVal (c :: cs) = digitsValFrom (10 * 0 + digVal c) cs := rfl
  rw [h2, digitsValFrom_eq cs (10 * 0 + digVal c)]
  ring

theorem digVal_le_nine {c : Char} (h : isDig c = true) : digVal c ≤ 9 := by
  simp [isDig] at h
  simp [digVal]
  omega

theorem digitsVal_lt : ∀ l : List Char, l.all isDig = true → digitsVal l < 10 ^ l.length
  | [] => fun _ => by
    have h : digitsVal ([] : List Char) = 0 := rfl
    rw [h]
    exact Nat.one_pos
  | c :: cs => fun h => by
    simp only [List.all_cons, Bool.and_eq_true] at h
    have ihv := digitsVal_lt cs h.2
    have hd := digVal_le_nine h.1
    rw [digitsVal_cons]
    calc digVal c * 10 ^ cs.length + digitsVal cs
        < digVal c * 10 ^ cs.length + 10 ^ cs.length := Nat.add_lt_add_left ihv _
      _ = (digVal c + 1) * 10 ^ cs.length := by ring
      _ ≤ 10 * 10 ^ cs.length := Nat.mul_le_mul_right _ (by omega)
      _ = 10 ^ (c :: cs).length := by rw [List.length_cons]; ring

theorem digitsVal_ge {c : Char} (cs : List Char) (hc : isDig c = true) (h0 : cp c ≠ 48) :
    10 ^ cs.length ≤ digitsVal (c :: cs) := by
  have h1 : 1 ≤ digVal c := by
    simp [isDig] at hc
    simp [digVal]
    omega
  rw [digitsVal_cons]
  calc 10 ^ cs.length = 1 * 10 ^ cs.length := by ring
    _ ≤ digVal c * 10 ^ cs.length := Nat.mul_le_mul_right _ h1
    _ ≤ _ := Nat.le_add_right _ _

theorem digVal_inj {c d : Char} (hc : isDig c = true) (hd : isDig d = true)
    (h : digVal c = digVal d) : c = d := by
  apply cp_inj
  simp [isDig] at hc hd
  simp [digVal] at h
  omega

theorem digitsVal_inj_of_len_eq : ∀ (l1 l2 : List Char), l1.length = l2.length →
    l1.all isDig = true → l2.all isDig = true → digitsVal l1 = digitsVal l2 → l1 = l2
  | [], [], _, _, _, _ => rfl
  | [], _ :: _, hl, _, _, _ => by simp at hl
  | _ :: _, [], hl, _, _, _ => by simp at hl
  | c :: cs, d :: ds, hl, h1, h2, hv => by
    simp only [List.all_cons, Bool.and_eq_true] at h1 h2
    simp only [List.length_cons, Nat.add_right_cancel_iff] at hl
    rw [digitsVal_cons, digitsVal_cons, hl] at hv
    have hv1 := digitsVal_lt cs h1.2
    have hv2 := digitsVal_lt ds h2.2
    rw [hl] at hv1
    set t := 10 ^ ds.length with ht
    have hmod : digitsVal cs = digitsVal ds := by
      have m1 : (digVal c * t + digitsVal cs) % t = digitsVal cs := by
        rw [Nat.add_comm, Nat.add_mul_mod_self_right, Nat.mod_eq_of_lt hv1]
      have m2 : (digVal d * t + digitsVal ds) % t = digitsVal ds := by
        rw [Nat.add_comm, Nat.add_mul_mod_self_right, Nat.mod_eq_of_lt hv2]
      rw [← m1, ← m2, hv]
    have hdv : digVal c = digVal d := by
      have ht0 : 0 < t := Nat.pos_pow_of_pos _ (by omega)
      have : digVal c * t = digVal d * t := by omega
      exact Nat.eq_of_mul_eq_mul_right ht0 this
    rw [digVal_inj h1.1 h2.1 hdv, digitsVal_inj_of_len_eq cs ds hl h1.2 h2.2 hmod]

theorem digitsVal_lt_of_len_lt {l1 l2 : List Char} (hne : l1 ≠ []) (hl : l1.length < l2.length)
    (h1 : l1.all isDig = true) (h2 : l2.all isDig = true)
    (z2 : ∀ c cs, l2 = c :: cs → cp c = 48 → cs = []) :
    digitsVal l1 < digitsVal l2 := by
  match l2, hl with
  | c :: cs, hl =>
    simp only [List.all_cons, Bool.and_eq_true] at h2
    have hcs : cs ≠ [] := by
      intro he
      rw [he] at hl
      simp at hl
      exact hne hl
    have h48 : cp c ≠ 48 := fun h => hcs (z2 c cs rfl h)
    calc digitsVal l1 < 10 ^ l1.length := digitsVal_lt l1 h1
      _ ≤ 10 ^ cs.length := Nat.pow_le_pow_right (by omega) (by simp at hl; omega)
      _ ≤ digitsVal (c :: cs) := digitsVal_ge cs h2.1 h48

theorem digitsVal_inj {l1 l2 : List Char} (hne1 : l1 ≠ []) (hne2 : l2 ≠ [])
    (h1 : l1.all isDig = true) (h2 : l2.all isDig = true)
    (z1 : ∀ c cs, l1 = c :: cs → cp c = 48 → cs = [])
    (z2 : ∀ c cs, l2 = c :: cs → cp c = 48 → cs = [])
    (hv : digitsVal l1 = digitsVal l2) : l1 = l2 := by
  rcases Nat.lt_trichotomy l1.length l2.length with hl | hl | hl
  · exact absurd hv (Nat.ne_of_lt (digitsVal_lt_of_len_lt hne1 hl h1 h2 z2))
  · exact digitsVal_inj_of_len_eq l1 l2 hl h1 h2 hv
  · exact absurd hv.symm (Nat.ne_of_lt (digitsVal_lt_of_len_lt hne2 hl h2 h1 z1))

/-! ### The identifier comparison as a comparison of keys -/


theorem cmpIdent_eq_keyCmp (x y : String) : cmpIdent x y = keyCmp (identKey x) (identKey y) := by
  by_cases hxy : x = y
  · subst hxy
    have h0 : cmpIdent x x = 0 := by simp [cmpIdent]
    rw [h0]
    by_cases hd : pyIsDigit x = true <;> simp [identKey, hd, keyCmp]
  · by_cases hdx : pyIsDigit x = true <;> by_cases hdy : pyIsDigit y = true <;>
      simp [cmpIdent, identKey, keyCmp, hxy, hdx, hdy]

theorem keyCmp_self (k : Nat ⊕ String) : keyCmp k k = 0 := by
  cases k <;> simp [keyCmp]

theorem keyCmp_eq_zero_iff (k1 k2 : Nat ⊕ String) : keyCmp k1 k2 = 0 ↔ k1 = k2 := by
  cases k1 <;> cases k2
  · next m n =>
    have h : keyCmp (Sum.inl m) (Sum.inl n) = if m < n then -1 else if n < m then 1 else 0 := rfl
    rw [h]
    simp only [Sum.inl.injEq]
    split
    · next h1 => constructor <;> intro h2 <;> omega
    · split
      · next h2 => constructor <;> intro h3 <;> omega
      · next h1 h2 => constructor <;> intro h3 <;> omega
  · next m t =>
    have h : keyCmp (Sum.inl m) (Sum.inr t) = -1 := rfl
    rw [h]
    norm_num
    exact fun hc => Sum.noConfusion hc
  · next s n =>
    have h : keyCmp (Sum.inr s) (Sum.inl n) = 1 := rfl
    rw [h]
    norm_num
    exact fun hc => Sum.noConfusion hc
  · next s t =>
    have h : keyCmp (Sum.inr s) (Sum.inr t) = if s = t then 0 else if pyStrLt s t then -1 else 1 := rfl
    rw [h]
    simp only [Sum.inr.injEq]
    by_cases hst : s = t
    · simp [hst]
    · simp only [if_neg hst]
      split <;> simp [hst]

theorem keyCmp_neg (k1 k2 : Nat ⊕ String) : keyCmp k1 k2 = -keyCmp k2 k1 := by
  cases k1 <;> cases k2
  · next m n =>
    have h1 : keyCmp (Sum.inl m) (Sum.inl n) = if m < n then -1 else if n < m then 1 else 0 := rfl
    have h2 : keyCmp (Sum.inl n) (Sum.inl m) = if n < m then -1 else if m < n then 1 else 0 := rfl
    rw [h1, h2]
    split <;> split <;> omega
  · rfl
  · rfl
  · next s t =>
    have h1 : keyCmp (Sum.inr s) (Sum.inr t) = if s = t then 0 else if pyStrLt s t then -1 else 1 := rfl
    have h2 : keyCmp (Sum.inr t) (Sum.inr s) = if t = s then 0 else if pyStrLt t s then -1 else 1 := rfl
    rw [h1, h2]
    by_cases hst : s = t
    · simp [hst]
    · have hts : ¬(t = s) := fun he => hst he.symm
      simp only [if_neg hst, if_neg hts]
      rcases pyStrLt_total hst with hlt | hlt
      · simp [hlt, pyStrLt_asymm hlt]
      · simp [hlt, pyStrLt_asymm hlt]

theorem keyCmp_inl_inl (m n : Nat) :
    keyCmp (Sum.inl m) (Sum.inl n) = if m < n then -1 else if n < m then 1 else 0 := rfl

theorem keyCmp_inr_inr (t u : String) :
    keyCmp (Sum.inr t) (Sum.inr u) = if t = u then 0 else if pyStrLt t u then -1 else 1 := rfl

theorem keyCmp_trans_lt {k1 k2 k3 : Nat ⊕ String}
    (h1 : keyCmp k1 k2 < 0) (h2 : keyCmp k2 k3 < 0) : keyCmp k1 k3 < 0 := by
  cases k1 <;> cases k2 <;> cases k3
  · rw [keyCmp_inl_inl] at h1 h2 ⊢
    split at h1 <;> split at h2 <;> split <;> omega
  · rw [show keyCmp (Sum.inl _) (Sum.inr _) = -1 from rfl]; omega
  · exact absurd h2 (by rw [show keyCmp (Sum.inr _) (Sum.inl _) = 1 from rfl]; omega)
  · rw [show keyCmp (Sum.inl _) (Sum.inr _) = -1 from rfl]; omega
  · exact absurd h1 (by rw [show keyCmp (Sum.inr _) (Sum.inl _) = 1 from rfl]; omega)
  · exact absurd h1 (by rw [show keyCmp (Sum.inr _) (Sum.inl _) = 1 from rfl]; omega)
  · exact absurd h2 (by rw [show keyCmp (Sum.inr _) (Sum.inl _) = 1 from rfl]; omega)
  · next s t u =>
    rw [keyCmp_inr_inr] at h1 h2 ⊢
    split at h1
    · omega
    · split at h1
      · next hst =>
        split at h2
        · omega
        · split at h2
          · next htu =>
            have hsu : pyStrLt s u = true := pyStrLt_trans hst htu
            rw [if_neg (pyStrLt_ne hsu), if_pos hsu]
            omega
          · omega
      · omega

theorem cmpIdent_self (x : String) : cmpIdent x x = 0 := by simp [cmpIdent]

theorem cmpIdent_neg (x y : String) : cmpIdent x y = -cmpIdent y x := by
  rw [cmpIdent_eq_keyCmp, cmpIdent_eq_keyCmp, keyCmp_neg]

theorem cmpIdent_trans_lt {x y z : String} (h1 : cmpIdent x y < 0) (h2 : cmpIdent y z < 0) :
    cmpIdent x z < 0 := by
  rw [cmpIdent_eq_keyCmp] at h1 h2 ⊢
  exact keyCmp_trans_lt h1 h2

theorem cmpIdent_zero_key {x y : String} (h : cmpIdent x y = 0) : identKey x = identKey y := by
  rw [cmpIdent_eq_keyCmp] at h
  exact (keyCmp_eq_zero_iff _ _).mp h

theorem cmpIdent_congr_left {x y : String} (h : identKey x = identKey y) (z : String) :
    cmpIdent x z = cmpIdent y z := by
  rw [cmpIdent_eq_keyCmp, cmpIdent_eq_keyCmp, h]

theorem cmpIdent_congr_right {y z : String} (h : identKey y = identKey z) (x : String) :
    cmpIdent x y = cmpIdent x z := by
  rw [cmpIdent_eq_keyCmp, cmpIdent_eq_keyCmp, h]

theorem valid_digit_facts {s : String} (hv : valid_pre_ident s.data = true)
    (hd : pyIsDigit s = true) :
    s.data ≠ [] ∧ s.data.all isDig = true ∧ (∀ c cs, s.data = c :: cs → cp c = 48 → cs = []) := by
  simp only [pyIsDigit, Bool.and_eq_true, Bool.not_eq_true'] at hd
  refine ⟨fun he => by rw [he] at hd; simp at hd, hd.2, fun c cs he h48 => ?_⟩
  rw [he] at hv hd
  simp only [List.all_cons, Bool.and_eq_true] at hd
  have hv' : (if isDig c = true then cs.all isDig && (!(cp c == 48) || cs.isEmpty)
      else ((isLetter c || cp c == 45) && cs.all isIdentCh)) = true := hv
  rw [if_pos hd.2.1] at hv'
  simp only [h48, Bool.and_eq_true, Bool.or_eq_true] at hv'
  rcases hv'.2 with hv2 | hv2
  · simp at hv2
  · exact List.isEmpty_iff.mp hv2

theorem cmpIdent_zero_of_valid {x y : String} (hx : valid_pre_ident x.data = true)
    (hy : valid_pre_ident y.data = true) (h : cmpIdent x y = 0) : x = y := by
  by_cases hxy : x = y
  · exact hxy
  · have hk := cmpIdent_zero_key h
    unfold identKey at hk
    by_cases hdx : pyIsDigit x = true <;> by_cases hdy : pyIsDigit y = true <;>
      simp [hdx, hdy] at hk
    · obtain ⟨nx, ax, zx⟩ := valid_digit_facts hx hdx
      obtain ⟨ny, ay, zy⟩ := valid_digit_facts hy hdy
      have : x.data = y.data := digitsVal_inj nx ny ax ay zx zy hk
      cases x
      cases y
      cases this
      rfl
    · exact absurd hk hxy

theorem cmpPre_cons (x y : String) (xs ys : List String) :
    cmpPre (x :: xs) (y :: ys) = if cmpIdent x y = 0 then cmpPre xs ys else cmpIdent x y := rfl

theorem cmpPre_self : ∀ p : List String, cmpPre p p = 0
  | [] => rfl
  | x :: xs => by rw [cmpPre_cons, if_pos (cmpIdent_self x)]; exact cmpPre_self xs

theorem cmpPre_neg : ∀ p q : List String, cmpPre p q = -cmpPre q p
  | [], [] => rfl
  | [], _ :: _ => rfl
  | _ :: _, [] => rfl
  | x :: xs, y :: ys => by
    rw [cmpPre_cons, cmpPre_cons]
    by_cases h : cmpIdent x y = 0
    · have h' : cmpIdent y x = 0 := by rw [cmpIdent_neg y x, h]; rfl
      rw [if_pos h, if_pos h']
      exact cmpPre_neg xs ys
    · have h' : cmpIdent y x ≠ 0 := fun hc => h (by rw [cmpIdent_neg x y, hc]; rfl)
      rw [if_neg h, if_neg h']
      exact cmpIdent_neg x y

theorem cmpPre_trans_lt : ∀ p q r : List String,
    cmpPre p q < 0 → cmpPre q r < 0 → cmpPre p r < 0
  | [], [], _, h1, _ => absurd h1 (by rw [show cmpPre [] [] = 0 from rfl]; omega)
  | [], _ :: _, [], _, h2 => absurd h2 (by rw [show cmpPre (_ :: _) [] = 1 from rfl]; omega)
  | [], _ :: _, _ :: _, _, _ => by rw [show cmpPre [] (_ :: _) = -1 from rfl]; omega
  | _ :: _, [], _, h1, _ => absurd h1 (by rw [show cmpPre (_ :: _) [] = 1 from rfl]; omega)
  | _ :: _, _ :: _, [], _, h2 => absurd h2 (by rw [show cmpPre (_ :: _) [] = 1 from rfl]; omega)
  | x :: xs, y :: ys, z :: zs, h1, h2 => by
    rw [cmpPre_cons] at h1 h2 ⊢
    by_cases hxy : cmpIdent x y = 0 <;> by_cases hyz : cmpIdent y z = 0
    · have hk : identKey x = identKey z :=
        (cmpIdent_zero_key hxy).trans (cmpIdent_zero_key hyz)
      have hxz : cmpIdent x z = 0 := by
        rw [cmpIdent_eq_keyCmp, hk, keyCmp_self]
      rw [if_pos hxy] at h1
      rw [if_pos hyz] at h2
      rw [if_pos hxz]
      exact cmpPre_trans_lt xs ys zs h1 h2
    · have hxz : cmpIdent x z = cmpIdent y z := cmpIdent_congr_left (cmpIdent_zero_key hxy) z
      rw [if_neg hyz] at h2
      have : cmpIdent x z < 0 := hxz ▸ h2
      rw [if_neg (by omega), hxz]
      exact h2
    · have hxz : cmpIdent x z = cmpIdent x y := (cmpIdent_congr_right (cmpIdent_zero_key hyz) x).symm
      rw [if_neg hxy] at h1
      have : cmpIdent x z < 0 := hxz ▸ h1
      rw [if_neg (by omega), hxz]
      exact h1
    · rw [if_neg hxy] at h1
      rw [if_neg hyz] at h2
      have := cmpIdent_trans_lt h1 h2
      rw [if_neg (by omega)]
      exact this

theorem cmpPre_zero_iff_valid : ∀ p q : List String,
    (∀ s ∈ p, valid_pre_ident s.data = true) → (∀ s ∈ q, valid_pre_ident s.data = true) →
    (cmpPre p q = 0 ↔ p = q)
  | [], [], _, _ => by simp [cmpPre]
  | [], _ :: _, _, _ => by
    rw [show cmpPre [] (_ :: _) = -1 from rfl]
    simp
  | _ :: _, [], _, _ => by
    rw [show cmpPre (_ :: _) [] = 1 from rfl]
    simp
  | x :: xs, y :: ys, hp, hq => by
    rw [cmpPre_cons]
    by_cases h : cmpIdent x y = 0
    · have hxy : x = y :=
        cmpIdent_zero_of_valid (hp x (by simp)) (hq y (by simp)) h
      rw [if_pos h,
        cmpPre_zero_iff_valid xs ys (fun s hs => hp s (by simp [hs])) (fun s hs => hq s (by simp [hs]))]
      simp [hxy]
    · rw [if_neg h]
      constructor
      · intro hc
        exact absurd hc h
      · intro hc
        obtain ⟨h1, -⟩ := List.cons.injEq .. ▸ hc
        exact absurd (h1 ▸ cmpIdent_self x) h

/-! ### `compare_semver` as a lexicographic composition -/


theorem compare_semver_eq (a b : SemVer) : compare_semver a b =
    lexC (natCmp a.major b.major) (lexC (natCmp a.minor b.minor)
      (lexC (natCmp a.patch b.patch) (preEmptyCmp a.prerelease b.prerelease))) := by
  unfold compare_semver lexC natCmp preEmptyCmp
  by_cases h1 : a.major = b.major <;> by_cases h2 : a.minor = b.minor <;>
    by_cases h3 : a.patch = b.patch <;>
    simp [h1, h2, h3] <;> omega

theorem lexC_lt_iff (c d : Int) : lexC c d < 0 ↔ c < 0 ∨ (c = 0 ∧ d < 0) := by
  unfold lexC
  split <;> rename_i h <;> simp [h] <;> omega

theorem lexC_eq_zero_iff (c d : Int) : lexC c d = 0 ↔ c = 0 ∧ d = 0 := by
  unfold lexC
  split <;> rename_i h <;> simp [h]

theorem lexC_neg {c d c' d' : Int} (hc : c = -c') (hd : d = -d') : lexC c d = -lexC c' d' := by
  unfold lexC
  by_cases h : c' = 0
  · simp [h, hc, hd]
  · have h2 : ¬(c = 0) := by omega
    simp [h, h2, hc]

theorem natCmp_lt_iff (m n : Nat) : natCmp m n < 0 ↔ m < n := by
  unfold natCmp
  split <;> rename_i h
  · simp [h]
  · split <;> rename_i h2 <;> simp [h, h2] <;> omega

theorem natCmp_eq_zero_iff (m n : Nat) : natCmp m n = 0 ↔ m = n := by
  unfold natCmp
  split <;> rename_i h
  · constructor <;> intro h2 <;> omega
  · split <;> rename_i h2 <;> constructor <;> intro h3 <;> omega

theorem natCmp_neg (m n : Nat) : natCmp m n = -natCmp n m := by
  unfold natCmp
  split <;> split <;> try omega
  all_goals (split <;> omega)

theorem cmpPre_nil_cons (y : String) (ys : List String) : cmpPre [] (y :: ys) = -1 := rfl

theorem cmpPre_cons_nil (x : String) (xs : List String) : cmpPre (x :: xs) [] = 1 := rfl

theorem preEmptyCmp_neg (p q : List String) : preEmptyCmp p q = -preEmptyCmp q p := by
  cases p <;> cases q
  · rfl
  · rfl
  · rfl
  · exact cmpPre_neg _ _

theorem preEmptyCmp_lt_iff (p q : List String) :
    preEmptyCmp p q < 0 ↔ (p ≠ [] ∧ q = []) ∨ (p ≠ [] ∧ q ≠ [] ∧ cmpPre p q < 0) := by
  cases p <;> cases q
  · show cmpPre ([] : List String) [] < 0 ↔ _
    rw [show cmpPre ([] : List String) [] = 0 from rfl]
    simp
  · show (1 : Int) < 0 ↔ _
    norm_num
  · show (-1 : Int) < 0 ↔ _
    simp
  · show cmpPre _ _ < 0 ↔ _
    simp

theorem preEmptyCmp_trans_lt {p q r : List String}
    (h1 : preEmptyCmp p q < 0) (h2 : preEmptyCmp q r < 0) : preEmptyCmp p r < 0 := by
  rw [preEmptyCmp_lt_iff] at h1 h2 ⊢
  rcases h1 with ⟨hp, hq⟩ | ⟨hp, hq, hpq⟩
  · rcases h2 with ⟨hq', -⟩ | ⟨hq', -⟩ <;> exact absurd hq hq'
  · rcases h2 with ⟨-, hr⟩ | ⟨-, hr, hqr⟩
    · exact Or.inl ⟨hp, hr⟩
    · exact Or.inr ⟨hp, hr, cmpPre_trans_lt p q r hpq hqr⟩

theorem preEmptyCmp_zero_iff_valid {p q : List String}
    (hp : ∀ s ∈ p, valid_pre_ident s.data = true) (hq : ∀ s ∈ q, valid_pre_ident s.data = true) :
    (preEmptyCmp p q = 0 ↔ p = q) := by
  cases p <;> cases q
  · show cmpPre ([] : List String) [] = 0 ↔ _
    rw [show cmpPre ([] : List String) [] = 0 from rfl]
    simp
  · show (1 : Int) = 0 ↔ _
    norm_num
    exact List.cons_ne_nil _ _
  · show (-1 : Int) = 0 ↔ _
    norm_num
    exact List.cons_ne_nil _ _
  · show cmpPre _ _ = 0 ↔ _
    exact cmpPre_zero_iff_valid _ _ hp hq

/-- Characterization of `compare_semver a b < 0`. -/
theorem cmp_lt_iff (a b : SemVer) : compare_semver a b < 0 ↔
    a.major < b.major ∨ (a.major = b.major ∧ (a.minor < b.minor ∨ (a.minor = b.minor ∧
      (a.patch < b.patch ∨ (a.patch = b.patch ∧
        preEmptyCmp a.prerelease b.prerelease < 0))))) := by
  rw [compare_semver_eq]
  simp [lexC_lt_iff, natCmp_lt_iff, natCmp_eq_zero_iff]

/-- Characterization of `compare_semver a b = 0`. -/
theorem cmp_eq_zero_iff_parts (a b : SemVer) : compare_semver a b = 0 ↔
    a.major = b.major ∧ a.minor = b.minor ∧ a.patch = b.patch ∧
      preEmptyCmp a.prerelease b.prerelease = 0 := by
  rw [compare_semver_eq]
  simp [lexC_eq_zero_iff, natCmp_eq_zero_iff, and_assoc]

theorem compare_semver_self (a : SemVer) : compare_semver a a = 0 := by
  rw [cmp_eq_zero_iff_parts]
  refine ⟨rfl, rfl, rfl, ?_⟩
  unfold preEmptyCmp
  cases h : a.prerelease <;> simp
  · rw [show cmpPre [] [] = 0 from rfl]
  · exact cmpPre_self _

theorem compare_semver_neg (a b : SemVer) : compare_semver a b = -compare_semver b a := by
  rw [compare_semver_eq, compare_semver_eq]
  exact lexC_neg (natCmp_neg _ _)
    (lexC_neg (natCmp_neg _ _) (lexC_neg (natCmp_neg _ _) (preEmptyCmp_neg _ _)))

theorem compare_semver_trans_lt {a b c : SemVer}
    (h1 : compare_semver a b < 0) (h2 : compare_semver b c < 0) : compare_semver a c < 0 := by
  rw [cmp_lt_iff] at h1 h2 ⊢
  rcases h1 with h1 | ⟨e1, h1 | ⟨e1b, h1 | ⟨e1c, h1⟩⟩⟩ <;>
    rcases h2 with h2 | ⟨e2, h2 | ⟨e2b, h2 | ⟨e2c, h2⟩⟩⟩
  all_goals try (left; omega)
  all_goals try (right; exact ⟨by omega, by left; omega⟩)
  all_goals try (right; refine ⟨by omega, Or.inr ⟨by omega, by left; omega⟩⟩)
  · exact Or.inr ⟨by omega, Or.inr ⟨by omega, Or.inr ⟨by omega, preEmptyCmp_trans_lt h1 h2⟩⟩⟩

theorem compare_semver_zero_iff_valid {a b : SemVer}
    (ha : ∀ s ∈ a.prerelease, valid_pre_ident s.data = true)
    (hb : ∀ s ∈ b.prerelease, valid_pre_ident s.data = true) :
    (compare_semver a b = 0 ↔
      a.major = b.major ∧ a.minor = b.minor ∧ a.patch = b.patch ∧
        a.prerelease = b.prerelease) := by
  rw [cmp_eq_zero_iff_parts, preEmptyCmp_zero_iff_valid ha hb]

theorem parse_pre_part_valid : ∀ {cs : List Char} {pre : List String} {rest : List Char},
    parse_pre_part cs = some (pre, rest) → ∀ s ∈ pre, valid_pre_ident s.data = true := by
  intro cs pre rest h s hs
  cases cs with
  | nil =>
    have h' : some (([] : List String), ([] : List Char)) = some (pre, rest) := h
    simp only [Option.some.injEq, Prod.mk.injEq] at h'
    rw [← h'.1] at hs
    simp at hs
  | cons c cs' =>
    have h' : (if (cp c == 45) = true then
        (if (splitDots (cs'.takeWhile (fun d => isIdentCh d || cp d == 46))).all
            valid_pre_ident = true then
          some ((splitDots (cs'.takeWhile (fun d => isIdentCh d || cp d == 46))).map
              (fun p => String.mk p),
            cs'.dropWhile (fun d => isIdentCh d || cp d == 46))
        else none)
      else some ([], c :: cs')) = some (pre, rest) := h
    split at h'
    · split at h'
      · next hall =>
        simp only [Option.some.injEq, Prod.mk.injEq] at h'
        rw [← h'.1] at hs
        obtain ⟨piece, hpiece, hmk⟩ := List.mem_map.mp hs
        rw [← hmk]
        exact List.all_eq_true.mp hall piece hpiece
      · exact absurd h' (by simp)
    · simp only [Option.some.injEq, Prod.mk.injEq] at h'
      rw [← h'.1] at hs
      simp at hs

theorem parse_valid_prerelease {v : String} {a : SemVer} (h : SemVer.parse v = some a) :
    ∀ s ∈ a.prerelease, valid_pre_ident s.data = true := by
  unfold SemVer.parse at h
  dsimp only at h
  split at h
  · exact absurd h (by simp)
  · split at h
    · exact absurd h (by simp)
    · split at h
      · split at h
        · exact absurd h (by simp)
        · split at h
          · exact absurd h (by simp)
          · split at h
            · split at h
              · exact absurd h (by simp)
              · split at h
                · exact absurd h (by simp)
                · next hpre =>
                  split at h
                  · exact absurd h (by simp)
                  · split at h
                    · simp only [Option.some.injEq] at h
                      rw [← h]
                      exact parse_pre_part_valid hpre
                    · exact absurd h (by simp)
            · exact absurd h (by simp)
      · exact absurd h (by simp)

/-! ### The spec's precedence order (modelled from the spec, §4.1) -/


theorem spec_numeric_eq_pyIsDigit (s : String) : spec_numeric s = pyIsDigit s := rfl

theorem cmpIdent_lt_iff_spec (x y : String) : cmpIdent x y < 0 ↔ spec_ident_lt x y = true := by
  unfold cmpIdent spec_ident_lt
  rw [spec_numeric_eq_pyIsDigit, spec_numeric_eq_pyIsDigit]
  by_cases hdx : pyIsDigit x = true <;> by_cases hdy : pyIsDigit y = true
  · by_cases hxy : x = y
    · subst hxy
      simp [hdx]
    · simp only [if_neg hxy, hdx, hdy, Bool.and_self, if_pos]
      rcases Nat.lt_trichotomy (numeral_val x) (numeral_val y) with hv | hv | hv
      · simp [hv]
      · simp [hv]
        try omega
      · rw [if_neg (by omega), if_pos hv]
        simp
        try omega
  · have hxy : ¬(x = y) := fun he => hdy (he ▸ hdx)
    simp [hxy, hdx, hdy]
  · have hxy : ¬(x = y) := fun he => hdx (he ▸ hdy)
    simp [hxy, hdx, hdy]
  · by_cases hxy : x = y
    · subst hxy
      simp [hdx, pyStrLt_irrefl]
    · simp [hxy, hdx, hdy]
      split <;> simp_all

theorem cmpIdent_zero_iff_spec (x y : String) : cmpIdent x y = 0 ↔ spec_ident_eq x y = true := by
  unfold cmpIdent spec_ident_eq
  rw [spec_numeric_eq_pyIsDigit, spec_numeric_eq_pyIsDigit]
  by_cases hdx : pyIsDigit x = true <;> by_cases hdy : pyIsDigit y = true
  · by_cases hxy : x = y
    · subst hxy
      simp [hdx]
    · simp only [if_neg hxy, hdx, hdy, Bool.and_self, if_pos]
      rcases Nat.lt_trichotomy (numeral_val x) (numeral_val y) with hv | hv | hv
      · simp [hv]
        try omega
      · simp [hv]
        try omega
      · rw [if_neg (by omega), if_pos hv]
        simp
        try omega
  · have hxy : ¬(x = y) := fun he => hdy (he ▸ hdx)
    simp [hxy, hdx, hdy]
  · have hxy : ¬(x = y) := fun he => hdx (he ▸ hdy)
    simp [hxy, hdx, hdy]
  · by_cases hxy : x = y
    · subst hxy
      simp [hdx]
    · simp [hxy, hdx, hdy]
      split <;> simp_all

theorem keyCmp_values (k1 k2 : Nat ⊕ String) :
    keyCmp k1 k2 = -1 ∨ keyCmp k1 k2 = 0 ∨ keyCmp k1 k2 = 1 := by
  cases k1 <;> cases k2
  · rw [keyCmp_inl_inl]
    split
    · omega
    · split <;> omega
  · exact Or.inl rfl
  · exact Or.inr (Or.inr rfl)
  · rw [keyCmp_inr_inr]
    split
    · omega
    · split <;> omega

theorem cmpIdent_values (x y : String) :
    cmpIdent x y = -1 ∨ cmpIdent x y = 0 ∨ cmpIdent x y = 1 := by
  rw [cmpIdent_eq_keyCmp]
  exact keyCmp_values _ _

theorem cmpPre_lt_iff_spec : ∀ p q : List String, cmpPre p q < 0 ↔ spec_pre_lt p q = true
  | [], [] => by
    rw [show cmpPre [] [] = 0 from rfl, show spec_pre_lt [] [] = false from rfl]
    simp
  | [], y :: ys => by
    rw [cmpPre_nil_cons, show spec_pre_lt [] (y :: ys) = true from rfl]
    simp
  | x :: xs, [] => by
    rw [cmpPre_cons_nil, show spec_pre_lt (x :: xs) [] = false from rfl]
    simp
  | x :: xs, y :: ys => by
    rw [cmpPre_cons, show spec_pre_lt (x :: xs) (y :: ys) =
      (spec_ident_lt x y || (spec_ident_eq x y && spec_pre_lt xs ys)) from rfl]
    by_cases h : cmpIdent x y = 0
    · have he : spec_ident_eq x y = true := (cmpIdent_zero_iff_spec x y).mp h
      have hl : spec_ident_lt x y = false := by
        rw [Bool.eq_false_iff]
        intro hc
        have := (cmpIdent_lt_iff_spec x y).mpr hc
        omega
      rw [if_pos h]
      simp [he, hl]
      exact cmpPre_lt_iff_spec xs ys
    · rw [if_neg h]
      by_cases hlt : cmpIdent x y < 0
      · have hsl := (cmpIdent_lt_iff_spec x y).mp hlt
        simp [hsl, hlt]
      · have hgt : cmpIdent x y = 1 := by
          rcases cmpIdent_values x y with hv | hv | hv <;> omega
        have hsl : spec_ident_lt x y = false := by
          rw [Bool.eq_false_iff]
          intro hc
          exact hlt ((cmpIdent_lt_iff_spec x y).mpr hc)
        have hse : spec_ident_eq x y = false := by
          rw [Bool.eq_false_iff]
          intro hc
          exact h ((cmpIdent_zero_iff_spec x y).mpr hc)
        simp [hsl, hse, hgt]

/-- The code's comparator agrees with the spec's precedence order. -/
theorem cmp_lt_iff_spec_lt (a b : SemVer) : compare_semver a b < 0 ↔ spec_lt a b = true := by
  rw [cmp_lt_iff]
  unfold spec_lt
  by_cases h1 : a.major = b.major
  · rw [if_neg (by omega : ¬(a.major ≠ b.major))]
    by_cases h2 : a.minor = b.minor
    · rw [if_neg (by omega : ¬(a.minor ≠ b.minor))]
      by_cases h3 : a.patch = b.patch
      · rw [if_neg (by omega : ¬(a.patch ≠ b.patch))]
        have hL : (a.major < b.major ∨ (a.major = b.major ∧ (a.minor < b.minor ∨
            (a.minor = b.minor ∧ (a.patch < b.patch ∨ (a.patch = b.patch ∧
              preEmptyCmp a.prerelease b.prerelease < 0)))))) ↔
            preEmptyCmp a.prerelease b.prerelease < 0 := by
          constructor
          · rintro (h | ⟨-, h | ⟨-, h | ⟨-, h⟩⟩⟩) <;> first | omega | exact h
          · intro h
            exact Or.inr ⟨h1, Or.inr ⟨h2, Or.inr ⟨h3, h⟩⟩⟩
        rw [hL]
        cases a.prerelease <;> cases b.prerelease
        · rw [show preEmptyCmp [] [] = cmpPre [] [] from rfl, show cmpPre [] [] = 0 from rfl]
          simp [show spec_pre_lt [] [] = false from rfl]
        · rw [show preEmptyCmp [] (_ :: _) = 1 from rfl]
          simp [show ∀ y ys, spec_pre_lt [] (y :: ys) = true from fun _ _ => rfl]
        · rw [show preEmptyCmp (_ :: _) [] = -1 from rfl]
          simp [show ∀ y ys, spec_pre_lt (y :: ys) [] = false from fun _ _ => rfl]
        · rw [show preEmptyCmp (_ :: _) (_ :: _) = cmpPre (_ :: _) (_ :: _) from rfl]
          exact cmpPre_lt_iff_spec _ _
      · rw [if_pos h3]
        simp only [decide_eq_true_eq]
        constructor
        · rintro (h | ⟨-, h | ⟨-, h | ⟨hc, -⟩⟩⟩) <;> first | omega | exact h
        · intro h
          exact Or.inr ⟨h1, Or.inr ⟨h2, Or.inl h⟩⟩
    · rw [if_pos h2]
      simp only [decide_eq_true_eq]
      constructor
      · rintro (h | ⟨-, h | ⟨hc, -⟩⟩) <;> first | omega | exact h
      · intro h
        exact Or.inr ⟨h1, Or.inl h⟩
  · rw [if_pos h1]
    simp only [decide_eq_true_eq]
    constructor
    · rintro (h | ⟨hc, -⟩) <;> first | omega | exact h
    · exact Or.inl

theorem cmpPre_congr_left : ∀ {p q : List String}, cmpPre p q = 0 → ∀ r, cmpPre p r = cmpPre q r
  | [], [], _, _ => rfl
  | [], y :: ys, h, _ => absurd h (by rw [cmpPre_nil_cons]; omega)
  | _ :: _, [], h, _ => absurd h (by rw [cmpPre_cons_nil]; omega)
  | x :: xs, y :: ys, h, r => by
    rw [cmpPre_cons] at h
    by_cases hxy : cmpIdent x y = 0
    · rw [if_pos hxy] at h
      cases r with
      | nil => rfl
      | cons z zs =>
        rw [cmpPre_cons, cmpPre_cons, cmpIdent_congr_left (cmpIdent_zero_key hxy) z,
          cmpPre_congr_left h zs]
    · rw [if_neg hxy] at h
      exact absurd h hxy

theorem preEmptyCmp_congr_left {p q : List String} (h : preEmptyCmp p q = 0) (r : List String) :
    preEmptyCmp p r = preEmptyCmp q r := by
  cases p <;> cases q
  · rfl
  · exact absurd h (by rw [show preEmptyCmp [] (_ :: _) = 1 from rfl]; omega)
  · exact absurd h (by rw [show preEmptyCmp (_ :: _) [] = -1 from rfl]; omega)
  · next x xs y ys =>
    have h' : cmpPre (x :: xs) (y :: ys) = 0 := h
    cases r with
    | nil => rfl
    | cons z zs =>
      show cmpPre _ _ = cmpPre _ _
      exact cmpPre_congr_left h' (z :: zs)

theorem compare_semver_congr_left {a b : SemVer} (h : compare_semver a b = 0) (c : SemVer) :
    compare_semver a c = compare_semver b c := by
  rw [cmp_eq_zero_iff_parts] at h
  obtain ⟨h1, h2, h3, h4⟩ := h
  rw [compare_semver_eq a c, compare_semver_eq b c, h1, h2, h3,
    preEmptyCmp_congr_left h4 c.prerelease]

theorem compare_semver_trans_ge {a b c : SemVer}
    (h1 : 0 ≤ compare_semver a b) (h2 : 0 ≤ compare_semver b c) : 0 ≤ compare_semver a c := by
  by_contra hc
  push_neg at hc
  by_cases hab : compare_semver a b = 0
  · rw [compare_semver_congr_left hab c] at hc
    omega
  · by_cases hbc : compare_semver b c = 0
    · have hcb : compare_semver c b = 0 := by
        rw [compare_semver_neg, hbc]
        rfl
      have := compare_semver_congr_left hcb a
      rw [compare_semver_neg c a, compare_semver_neg b a] at this
      omega
    · have hba : compare_semver b a < 0 := by
        rw [compare_semver_neg]
        omega
      have hcb : compare_semver c b < 0 := by
        rw [compare_semver_neg]
        omega
      have hca := compare_semver_trans_lt hcb hba
      rw [compare_semver_neg] at hca
      omega

/-! ### Stable insertion sort: order, permutation, stability -/

theorem insertS_perm {α : Type} (le : α → α → Bool) (x : α) :
    ∀ l : List α, (insertS le x l).Perm (x :: l)
  | [] => List.Perm.refl _
  | y :: ys => by
    unfold insertS
    split
    · exact List.Perm.refl _
    · exact ((insertS_perm le x ys).cons y).trans (List.Perm.swap x y ys)

theorem insSort_perm {α : Type} (le : α → α → Bool) : ∀ l : List α, (insSort le l).Perm l
  | [] => List.Perm.refl _
  | x :: xs => (insertS_perm le x (insSort le xs)).trans ((insSort_perm le xs).cons x)

theorem mem_insertS {α : Type} (le : α → α → Bool) (x : α) (l : List α) (b : α) :
    b ∈ insertS le x l ↔ b = x ∨ b ∈ l := by
  rw [(insertS_perm le x l).mem_iff]
  simp

theorem insertS_pairwise {α : Type} (le : α → α → Bool)
    (htrans : ∀ a b c, le a b = true → le b c = true → le a c = true)
    (htotal : ∀ a b, le a b = true ∨ le b a = true) (x : α) :
    ∀ l : List α, l.Pairwise (fun a b => le a b = true) →
      (insertS le x l).Pairwise (fun a b => le a b = true)
  | [], _ => by
    rw [show insertS le x [] = [x] from rfl]
    simp
  | y :: ys, h => by
    rw [List.pairwise_cons] at h
    unfold insertS
    split
    · next hxy =>
      rw [List.pairwise_cons]
      refine ⟨?_, List.pairwise_cons.mpr h⟩
      intro b hb
      rcases List.mem_cons.mp hb with rfl | hb
      · exact hxy
      · exact htrans x y b hxy (h.1 b hb)
    · next hxy =>
      have hyx : le y x = true := by
        rcases htotal x y with ht | ht
        · exact absurd ht hxy
        · exact ht
      rw [List.pairwise_cons]
      refine ⟨?_, insertS_pairwise le htrans htotal x ys h.2⟩
      intro b hb
      rcases (mem_insertS le x ys b).mp hb with rfl | hb
      · exact hyx
      · exact h.1 b hb

theorem insSort_pairwise {α : Type} (le : α → α → Bool)
    (htrans : ∀ a b c, le a b = true → le b c = true → le a c = true)
    (htotal : ∀ a b, le a b = true ∨ le b a = true) :
    ∀ l : List α, (insSort le l).Pairwise (fun a b => le a b = true)
  | [] => by
    rw [show insSort le ([] : List α) = [] from rfl]
    simp
  | x :: xs => insertS_pairwise le htrans htotal x _ (insSort_pairwise le htrans htotal xs)

theorem insertS_filter {α : Type} (le : α → α → Bool) (p : α → Bool) (x : α) :
    ∀ l : List α, (p x = true → ∀ y ∈ l, p y = true → le x y = true) →
      (insertS le x l).filter p = if p x then x :: l.filter p else l.filter p
  | [], _ => by
    rw [show insertS le x [] = [x] from rfl]
    cases hp : p x <;> simp [hp, List.filter_cons]
  | y :: ys, hx => by
    unfold insertS
    split
    · next hxy =>
      rw [List.filter_cons]
    · next hxy =>
      have ih := insertS_filter le p x ys (fun hpx z hz hpz => hx hpx z (by simp [hz]) hpz)
      by_cases hpx : p x = true
      · have hpy : p y = false := by
          rw [Bool.eq_false_iff]
          intro hpy
          exact hxy (hx hpx y (by simp) hpy)
        simp [List.filter_cons, hpy, hpx, ih]
      · have hpx' : p x = false := Bool.not_eq_true _ ▸ eq_false_of_ne_true hpx
        simp [List.filter_cons, hpx', ih]

theorem insSort_filter {α : Type} (le : α → α → Bool) (p : α → Bool)
    (h : ∀ x y, p x = true → p y = true → le x y = true) :
    ∀ l : List α, (insSort le l).filter p = l.filter p
  | [] => rfl
  | x :: xs => by
    unfold insSort
    rw [insertS_filter le p x _ (fun hpx y _ hpy => h x y hpx hpy), insSort_filter le p h xs,
      List.filter_cons]

theorem sublist_insertS {α : Type} (le : α → α → Bool) (x : α) :
    ∀ l : List α, l.Sublist (insertS le x l)
  | [] => List.nil_sublist _
  | y :: ys => by
    unfold insertS
    split
    · exact List.sublist_cons_self x (y :: ys)
    · exact (sublist_insertS le x ys).cons₂ y

theorem pair_sublist_insertS {α : Type} (le : α → α → Bool) {x y : α} :
    ∀ {l : List α}, y ∈ l → le x y = true → [x, y].Sublist (insertS le x l)
  | [], hy, _ => absurd hy (List.not_mem_nil y)
  | z :: zs, hy, hle => by
    unfold insertS
    split
    · next hxz =>
      exact (List.singleton_sublist.mpr hy).cons₂ x
    · next hxz =>
      rcases List.mem_cons.mp hy with rfl | hy'
      · exact absurd hle hxz
      · exact (pair_sublist_insertS le hy' hle).cons z

theorem pair_sublist_insSort {α : Type} (le : α → α → Bool) {x y : α} :
    ∀ {l : List α}, [x, y].Sublist l → le x y = true → [x, y].Sublist (insSort le l)
  | [], h, _ => absurd h (by simp)
  | a :: as, h, hle => by
    unfold insSort
    cases h with
    | cons _ h' =>
      exact (pair_sublist_insSort le h' hle).trans (sublist_insertS le a _)
    | cons₂ _ h' =>
      have hy : y ∈ insSort le as := (insSort_perm le as).mem_iff.mpr (List.singleton_sublist.mp h')
      exact pair_sublist_insertS le hy hle

theorem pair_sublist_of_sorted {α : Type} (le : α → α → Bool) {x y : α} :
    ∀ {l : List α}, l.Pairwise (fun a b => le a b = true) → x ∈ l → y ∈ l → x ≠ y →
      le y x = false → [x, y].Sublist l
  | [], _, hx, _, _, _ => absurd hx (List.not_mem_nil x)
  | a :: as, hs, hx, hy, hne, hyx => by
    rw [List.pairwise_cons] at hs
    rcases List.mem_cons.mp hy with rfl | hy'
    · rcases List.mem_cons.mp hx with rfl | hx'
      · exact absurd rfl hne
      · exact absurd (hs.1 x hx') (by rw [hyx]; simp)
    · rcases List.mem_cons.mp hx with rfl | hx'
      · exact (List.singleton_sublist.mpr hy').cons₂ x
      · exact (pair_sublist_of_sorted le hs.2 hx' hy' hne hyx).cons a

/-! ### Facts about `get_prod_versions` -/


theorem get_prod_versions_eq (versions : List RawEntry) :
    get_prod_versions versions =
      insSort (prodLe (sort_versions_by_semver_desc ((norm_entries versions).map (fun v => v.version))))
        (norm_entries versions) := rfl

theorem semverDescLe_total (a b : SemVer × String) :
    semverDescLe a b = true ∨ semverDescLe b a = true := by
  unfold semverDescLe
  have h := compare_semver_neg a.1 b.1
  simp only [decide_eq_true_eq]
  omega

theorem semverDescLe_trans (a b c : SemVer × String)
    (h1 : semverDescLe a b = true) (h2 : semverDescLe b c = true) : semverDescLe a c = true := by
  unfold semverDescLe at h1 h2 ⊢
  simp only [decide_eq_true_eq] at h1 h2 ⊢
  exact compare_semver_trans_ge h1 h2

theorem prodLe_total (order : List String) (x y : Entry) :
    prodLe order x y = true ∨ prodLe order y x = true := by
  unfold prodLe
  simp only [decide_eq_true_eq]
  omega

theorem prodLe_trans (order : List String) (x y z : Entry)
    (h1 : prodLe order x y = true) (h2 : prodLe order y z = true) : prodLe order x z = true := by
  unfold prodLe at h1 h2 ⊢
  simp only [decide_eq_true_eq] at h1 h2 ⊢
  omega

theorem mem_parsed_pairs {vs : List String} {p : SemVer × String}
    (h : p ∈ vs.filterMap (fun v => (SemVer.parse v).map (fun sv => (sv, v)))) :
    SemVer.parse p.2 = some p.1 := by
  obtain ⟨v, -, hv⟩ := List.mem_filterMap.mp h
  cases hp : SemVer.parse v with
  | none => rw [hp] at hv; simp at hv
  | some sv =>
    rw [hp] at hv
    have hv' : (sv, v) = p := by simpa using hv
    rw [← hv']
    exact hp

theorem parsed_pairs_map_snd (vs : List String) :
    (vs.filterMap (fun v => (SemVer.parse v).map (fun sv => (sv, v)))).map (fun t => t.2) =
      vs.filter (fun v => (SemVer.parse v).isSome) := by
  induction vs with
  | nil => rfl
  | cons v vs ih =>
    rw [List.filterMap_cons, List.filter_cons]
    cases hp : SemVer.parse v <;> simp [hp, ih]

/-- The string order computed by `sort_versions_by_semver_desc` is a
permutation of the parsable input strings. -/
theorem order_perm (vs : List String) :
    (sort_versions_by_semver_desc vs).Perm (vs.filter (fun v => (SemVer.parse v).isSome)) := by
  unfold sort_versions_by_semver_desc
  rw [← parsed_pairs_map_snd]
  exact (insSort_perm _ _).map _

theorem mem_order_isSome {vs : List String} {s : String}
    (h : s ∈ sort_versions_by_semver_desc vs) : (SemVer.parse s).isSome = true := by
  have := (order_perm vs).mem_iff.mp h
  exact (List.mem_filter.mp this).2

theorem mem_order_of_mem {vs : List String} {s : String} (hs : s ∈ vs)
    (hp : (SemVer.parse s).isSome = true) : s ∈ sort_versions_by_semver_desc vs := by
  rw [(order_perm vs).mem_iff]
  exact List.mem_filter.mpr ⟨hs, hp⟩

/-- Sortedness of the string order: any earlier string compares at
least as large as any later one, through their parses. -/
theorem order_pairwise (vs : List String) :
    (sort_versions_by_semver_desc vs).Pairwise (fun s t =>
      ∀ x y, SemVer.parse s = some x → SemVer.parse t = some y →
        0 ≤ compare_semver x y) := by
  unfold sort_versions_by_semver_desc
  rw [List.pairwise_map]
  have hs := insSort_pairwise semverDescLe
    (fun a b c => semverDescLe_trans a b c) (fun a b => semverDescLe_total a b)
    (vs.filterMap (fun v => (SemVer.parse v).map (fun sv => (sv, v))))
  have hperm := insSort_perm semverDescLe
    (vs.filterMap (fun v => (SemVer.parse v).map (fun sv => (sv, v))))
  refine hs.imp_of_mem ?_
  intro p q hp hq hle x y hx hy
  have hp2 : SemVer.parse p.2 = some p.1 := mem_parsed_pairs (hperm.mem_iff.mp hp)
  have hq2 : SemVer.parse q.2 = some q.1 := mem_parsed_pairs (hperm.mem_iff.mp hq)
  rw [hp2] at hx
  rw [hq2] at hy
  cases hx
  cases hy
  unfold semverDescLe at hle
  simpa using hle

theorem lastIdx_isSome_iff : ∀ (l : List String) (v : String),
    (lastIdx l v).isSome = true ↔ v ∈ l
  | [], v => by simp [lastIdx]
  | x :: xs, v => by
    unfold lastIdx
    cases h : lastIdx xs v with
    | some j => simp [List.mem_cons, (lastIdx_isSome_iff xs v).symm, h]
    | none =>
      simp only [List.mem_cons, ← lastIdx_isSome_iff xs v, h]
      by_cases hx : x == v
      · have : x = v := by simpa using hx
        simp [hx, this]
      · have : ¬(v = x) := fun he => (by simpa using hx : ¬(x = v)) he.symm
        simp [hx, this]

theorem lastIdx_cons (x : String) (xs : List String) (v : String) :
    lastIdx (x :: xs) v = match lastIdx xs v with
      | some j => some (j + 1)
      | none => if x == v then some 0 else none := rfl

theorem lastIdx_get? : ∀ (l : List String) (v : String) (k : Nat),
    lastIdx l v = some k → l.get? k = some v
  | [], _, _, h => by
    rw [show lastIdx [] _ = none from rfl] at h
    exact absurd h (by simp)
  | x :: xs, v, k, h => by
    rw [lastIdx_cons] at h
    cases hx : lastIdx xs v with
    | some j =>
      rw [hx] at h
      have h' : j + 1 = k := by simpa using h
      rw [← h']
      simpa using lastIdx_get? xs v j hx
    | none =>
      rw [hx] at h
      by_cases hxv : (x == v) = true
      · have h0 : 0 = k := by
          rw [if_pos hxv] at h
          simpa using h
        have hxv' : x = v := by simpa using hxv
        rw [← h0]
        simp [hxv']
      · rw [if_neg hxv] at h
        exact absurd h (by simp)

theorem lastIdx_lt_length {l : List String} {v : String} {k : Nat}
    (h : lastIdx l v = some k) : k < l.length := by
  have := lastIdx_get? l v k h
  exact List.get?_eq_some.mp this |>.1

theorem lastIdx_none_of_not_mem {l : List String} {v : String} (h : v ∉ l) :
    lastIdx l v = none := by
  cases hk : lastIdx l v with
  | none => rfl
  | some k =>
    have : (lastIdx l v).isSome = true := by rw [hk]; rfl
    exact absurd ((lastIdx_isSome_iff l v).mp this) h

theorem lastIdx_some_of_mem {l : List String} {v : String} (h : v ∈ l) :
    ∃ k, lastIdx l v = some k := by
  have := (lastIdx_isSome_iff l v).mpr h
  cases hx : lastIdx l v with
  | none => rw [hx] at this; simp at this
  | some k => exact ⟨k, rfl⟩

theorem lastIdx_sublist_lt : ∀ {l : List String}, l.Nodup → ∀ {a b : String},
    [a, b].Sublist l → ∃ ka kb, lastIdx l a = some ka ∧ lastIdx l b = some kb ∧ ka < kb := by
  intro l
  induction l with
  | nil =>
    intro _ a b h
    exact absurd h (by simp)
  | cons x xs ih =>
    intro hnd a b h
    rw [List.nodup_cons] at hnd
    cases h with
    | cons _ h' =>
      obtain ⟨ka, kb, hka, hkb, hlt⟩ := ih hnd.2 h'
      refine ⟨ka + 1, kb + 1, ?_, ?_, by omega⟩
      · rw [lastIdx_cons, hka]
      · rw [lastIdx_cons, hkb]
    | cons₂ _ h' =>
      have hb : b ∈ xs := List.singleton_sublist.mp h'
      obtain ⟨kb, hkb⟩ := lastIdx_some_of_mem hb
      refine ⟨0, kb + 1, ?_, ?_, by omega⟩
      · rw [lastIdx_cons, lastIdx_none_of_not_mem hnd.1]
        simp
      · rw [lastIdx_cons, hkb]

theorem prodKey_unparsable {order : List String} {e : Entry}
    (horder : ∀ s ∈ order, (SemVer.parse s).isSome = true)
    (h : SemVer.parse e.version = none) : prodKey order e = 10 ^ 9 := by
  unfold prodKey
  rw [lastIdx_none_of_not_mem (fun hm => by
    have := horder _ hm
    rw [h] at this
    simp at this)]
  rfl

theorem prodKey_mem {order : List String} {e : Entry} (h : e.version ∈ order) :
    ∃ k, lastIdx order e.version = some k ∧ prodKey order e = k ∧ k < order.length := by
  obtain ⟨k, hk⟩ := lastIdx_some_of_mem h
  exact ⟨k, hk, by unfold prodKey; rw [hk]; rfl, lastIdx_lt_length hk⟩

theorem get_prod_versions_perm (versions : List RawEntry) :
    (get_prod_versions versions).Perm (norm_entries versions) := by
  rw [get_prod_versions_eq]
  exact insSort_perm _ _

theorem get_prod_versions_pairwise (versions : List RawEntry) :
    (get_prod_versions versions).Pairwise
      (fun x y => prodLe (prod_order versions) x y = true) := by
  rw [get_prod_versions_eq]
  exact insSort_pairwise _ (prodLe_trans _) (prodLe_total _) _

theorem norm_entries_length_le (versions : List RawEntry) :
    (norm_entries versions).length ≤ versions.length :=
  List.length_filterMap_le _ _

theorem prod_order_length_le (versions : List RawEntry) :
    (prod_order versions).length ≤ versions.length := by
  unfold prod_order
  calc (sort_versions_by_semver_desc ((norm_entries versions).map (fun v => v.version))).length
      = (((norm_entries versions).map (fun v => v.version)).filter
          (fun v => (SemVer.parse v).isSome)).length := (order_perm _).length_eq
    _ ≤ ((norm_entries versions).map (fun v => v.version)).length := List.length_filter_le _ _
    _ = (norm_entries versions).length := List.length_map _ _
    _ ≤ versions.length := norm_entries_length_le versions

/-! ### Dictionary facts: `by_version` keeps the last duplicate -/

theorem dict_get_cons (k1 : String) (v1 : Entry) (rest : List (String × Entry)) (q : String) :
    dict_get ((k1, v1) :: rest) q = if k1 == q then some v1 else dict_get rest q := rfl

theorem dict_get_insert (d : List (String × Entry)) (k : String) (v : Entry) (q : String) :
    dict_get (dict_insert d k v) q = if k == q then some v else dict_get d q := by
  induction d with
  | nil =>
    rw [show dict_insert [] k v = [(k, v)] from rfl]
    rfl
  | cons p rest ih =>
    obtain ⟨k1, v1⟩ := p
    rw [show dict_insert ((k1, v1) :: rest) k v =
      if k1 == k then (k, v) :: rest else (k1, v1) :: dict_insert rest k v from rfl]
    by_cases h1 : k1 = k
    · subst h1
      rw [if_pos (by simp), dict_get_cons, dict_get_cons]
      by_cases h2 : k1 = q
      · rw [if_pos (by simp [h2]), if_pos (by simp [h2])]
      · rw [if_neg (by simp [h2]), if_neg (by simp [h2]), if_neg (by simp [h2])]
    · rw [if_neg (by simp [h1]), dict_get_cons, dict_get_cons, ih]
      by_cases h2 : k1 = q
      · have hkq : ¬(k = q) := fun he => h1 (h2.trans he.symm)
        rw [if_pos (by simp [h2]), if_neg (by simp [hkq]), if_pos (by simp [h2])]
      · have hk1q : ¬((k1 == q) = true) := by simp [h2]
        simp only [if_neg hk1q]

theorem dict_get_foldl (k : String) : ∀ (l : List Entry) (d : List (String × Entry)),
    dict_get (l.foldl (fun d v => dict_insert d v.version v) d) k =
      match l.reverse.find? (fun v => v.version == k) with
      | some e => some e
      | none => dict_get d k
  | [], d => by simp
  | v :: vs, d => by
    rw [show (v :: vs).foldl (fun d v => dict_insert d v.version v) d =
      vs.foldl (fun d v => dict_insert d v.version v) (dict_insert d v.version v) from rfl,
      dict_get_foldl k vs (dict_insert d v.version v)]
    rw [show (v :: vs).reverse = vs.reverse ++ [v] from by simp, List.find?_append]
    cases hf : vs.reverse.find? (fun v => v.version == k) with
    | some e => simp
    | none =>
      rw [dict_get_insert]
      by_cases h : v.version = k
      · rw [List.find?_cons_of_pos _ (by simp [h]), if_pos (by simp [h])]
        simp
      · rw [List.find?_cons_of_neg _ (by simp [h]), if_neg (by simp [h])]
        simp

theorem by_version_get (prod : List Entry) (k : String) :
    dict_get (by_version_of prod) k = prod.reverse.find? (fun v => v.version == k) := by
  unfold by_version_of
  rw [dict_get_foldl]
  cases prod.reverse.find? (fun v => v.version == k) <;> rfl

theorem by_version_get_isSome {prod : List Entry} {k : String} {e : Entry}
    (he : e ∈ prod) (hv : e.version = k) : (dict_get (by_version_of prod) k).isSome = true := by
  rw [by_version_get]
  rw [List.find?_isSome]
  exact ⟨e, by simp [he], by simp [hv]⟩

theorem by_version_get_mem {prod : List Entry} {k : String} {e : Entry}
    (h : dict_get (by_version_of prod) k = some e) : e ∈ prod ∧ e.version = k := by
  rw [by_version_get] at h
  have hm := List.mem_reverse.mp (List.mem_of_find?_eq_some h)
  have hp := List.find?_some h
  exact ⟨hm, by simpa using hp⟩

/-! ### Facts about `pick_next_latest` -/

theorem dup_get_cons (k1 : String) (vs1 : List Entry) (rest : List (String × List Entry))
    (q : String) :
    dup_get ((k1, vs1) :: rest) q = if k1 == q then some vs1 else dup_get rest q := rfl

theorem dup_insert_get (d : List (String × List Entry)) (k : String) (v : Entry) (q : String) :
    dup_get (dup_insert d k v) q =
      if k == q then some ((dup_get d k).getD [] ++ [v]) else dup_get d q := by
  induction d with
  | nil =>
    rw [show dup_insert [] k v = [(k, [v])] from rfl, dup_get_cons,
      show dup_get [] k = none from rfl]
    rfl
  | cons p rest ih =>
    obtain ⟨k1, vs1⟩ := p
    rw [show dup_insert ((k1, vs1) :: rest) k v =
      if k1 == k then (k1, vs1 ++ [v]) :: rest else (k1, vs1) :: dup_insert rest k v from rfl]
    by_cases h1 : k1 = k
    · subst h1
      rw [if_pos (by simp)]
      by_cases h2 : k1 = q <;> simp [dup_get_cons, h2]
    · rw [if_neg (by simp [h1])]
      by_cases h2 : k = q
      · subst h2
        have hne : ¬((k1 == k) = true) := by simp [h1]
        simp [dup_get_cons, ih, hne]
      · have hne : ¬((k == q) = true) := by simp [h2]
        simp only [dup_get_cons, ih, if_neg hne]

theorem survivorsOf_cons (v : Entry) (l : List Entry) (excl : String) :
    survivorsOf (v :: l) excl =
      if !(v.version == excl) && !(v.tag == QUARANTINE_TAG)
      then v :: survivorsOf l excl else survivorsOf l excl := by
  unfold survivorsOf
  rw [List.filter_cons]

theorem pick_dup_get_aux (excl q : String) : ∀ (l : List Entry) (d : List (String × List Entry)),
    dup_get (l.foldl (fun d v =>
        if v.version == excl then d
        else if v.tag == QUARANTINE_TAG then d
        else dup_insert d v.version v) d) q =
      if (survivorsOf l excl).filter (fun v => v.version == q) = [] then dup_get d q
      else some ((dup_get d q).getD [] ++
        (survivorsOf l excl).filter (fun v => v.version == q))
  | [], d => by
    rw [show survivorsOf [] excl = [] from rfl]
    simp
  | v :: vs, d => by
    by_cases hex : v.version = excl
    · have hsurv : survivorsOf (v :: vs) excl = survivorsOf vs excl := by
        rw [survivorsOf_cons, if_neg (by simp [hex])]
      rw [hsurv, List.foldl_cons, if_pos (show (v.version == excl) = true by simp [hex])]
      exact pick_dup_get_aux excl q vs d
    · by_cases hqt : v.tag = QUARANTINE_TAG
      · have hsurv : survivorsOf (v :: vs) excl = survivorsOf vs excl := by
          rw [survivorsOf_cons, if_neg (by simp [hqt])]
        rw [hsurv, List.foldl_cons,
          if_neg (show ¬((v.version == excl) = true) by simp [hex]),
          if_pos (show (v.tag == QUARANTINE_TAG) = true by simp [hqt])]
        exact pick_dup_get_aux excl q vs d
      · have hsurv : survivorsOf (v :: vs) excl = v :: survivorsOf vs excl := by
          rw [survivorsOf_cons, if_pos (by simp [hex, hqt])]
        rw [hsurv, List.foldl_cons,
          if_neg (show ¬((v.version == excl) = true) by simp [hex]),
          if_neg (show ¬((v.tag == QUARANTINE_TAG) = true) by simp [hqt]),
          pick_dup_get_aux excl q vs (dup_insert d v.version v), List.filter_cons,
          dup_insert_get]
        by_cases hvq : v.version = q
        · subst hvq
          rw [if_pos (show (v.version == v.version) = true by simp),
            if_pos (show (v.version == v.version) = true by simp),
            if_neg (show ¬(v :: (survivorsOf vs excl).filter (fun x => x.version == v.version)
              = []) by simp)]
          by_cases hfs : (survivorsOf vs excl).filter (fun x => x.version == v.version) = []
          · rw [hfs, if_pos rfl]
          · rw [if_neg hfs]
            simp
        · rw [if_neg (show ¬((v.version == q) = true) by simp [hvq]),
            if_neg (show ¬((v.version == q) = true) by simp [hvq])]

theorem pick_dup_get (l : List Entry) (excl q : String) :
    dup_get (pick_dup l excl) q =
      if (survivorsOf l excl).filter (fun v => v.version == q) = [] then none
      else some ((survivorsOf l excl).filter (fun v => v.version == q)) := by
  unfold pick_dup
  rw [pick_dup_get_aux excl q l []]
  rfl

theorem pick_dup_get_isSome_iff (l : List Entry) (excl q : String) :
    (dup_get (pick_dup l excl) q).isSome = true ↔
      (survivorsOf l excl).any (fun s => s.version == q) = true := by
  rw [pick_dup_get]
  by_cases h : (survivorsOf l excl).filter (fun v => v.version == q) = []
  · rw [if_pos h]
    simp only [Option.isSome_none]
    constructor
    · intro hc
      exact absurd hc (by simp)
    · intro hc
      obtain ⟨e, he, hp⟩ := List.any_eq_true.mp hc
      have : e ∈ (survivorsOf l excl).filter (fun v => v.version == q) :=
        List.mem_filter.mpr ⟨he, hp⟩
      rw [h] at this
      simp at this
  · rw [if_neg h]
    simp only [Option.isSome_some, true_iff]
    obtain ⟨e, he⟩ := List.exists_mem_of_ne_nil _ h
    have := List.mem_filter.mp he
    exact List.any_eq_true.mpr ⟨e, this.1, this.2⟩

theorem ordered_scan_head (dup : List (String × List Entry)) :
    ∀ (l : List Entry) (excl : String) (seen : List String),
    (ordered_scan dup l excl seen).head? =
      ((l.filter (fun v => !(v.version == excl) && (dup_get dup v.version).isSome &&
        !(seen.contains v.version))).head?).map (fun v => v.version)
  | [], excl, seen => by
    rw [show ordered_scan dup [] excl seen = [] from rfl]
    simp
  | v :: vs, excl, seen => by
    rw [show ordered_scan dup (v :: vs) excl seen =
      (if v.version == excl then ordered_scan dup vs excl seen
       else if (dup_get dup v.version).isSome && !(seen.contains v.version) then
         v.version :: ordered_scan dup vs excl (v.version :: seen)
       else ordered_scan dup vs excl seen) from rfl, List.filter_cons]
    by_cases hex : (v.version == excl) = true
    · rw [if_pos hex, if_neg (by simp [hex] : ¬((!(v.version == excl) &&
        (dup_get dup v.version).isSome && !(seen.contains v.version)) = true))]
      exact ordered_scan_head dup vs excl seen
    · rw [if_neg hex]
      by_cases hk : ((dup_get dup v.version).isSome && !(seen.contains v.version)) = true
      · rw [if_pos hk, if_pos (by
          simp only [Bool.and_eq_true] at hk ⊢
          exact ⟨⟨by simp [hex], hk.1⟩, hk.2⟩)]
        simp
      · rw [if_neg hk, if_neg (by
          intro hc
          simp only [Bool.and_eq_true] at hc hk
          exact hk ⟨hc.1.2, hc.2⟩)]
        exact ordered_scan_head dup vs excl seen

theorem pick_dup_nonempty {l : List Entry} {excl : String} {e : Entry}
    (he : e ∈ survivorsOf l excl) : pick_dup l excl ≠ [] := by
  intro hc
  have h1 : (dup_get (pick_dup l excl) e.version).isSome = true := by
    rw [pick_dup_get_isSome_iff]
    exact List.any_eq_true.mpr ⟨e, he, by simp⟩
  rw [hc] at h1
  rw [show dup_get [] e.version = none from rfl] at h1
  simp at h1

theorem pick_dup_empty_of_no_survivors {l : List Entry} {excl : String}
    (h : survivorsOf l excl = []) : pick_dup l excl = [] := by
  unfold pick_dup
  suffices haux : ∀ (l' : List Entry), survivorsOf l' excl = [] →
      ∀ d, l'.foldl (fun d v =>
        if v.version == excl then d
        else if v.tag == QUARANTINE_TAG then d
        else dup_insert d v.version v) d = d by
    exact haux l h []
  intro l'
  induction l' with
  | nil => intro _ d; rfl
  | cons v vs ih =>
    intro hs d
    rw [survivorsOf_cons] at hs
    by_cases hex : v.version = excl
    · rw [List.foldl_cons, if_pos (by simp [hex])]
      rw [if_neg (by simp [hex])] at hs
      exact ih hs d
    · by_cases hqt : v.tag = QUARANTINE_TAG
      · rw [List.foldl_cons, if_neg (by simp [hex]), if_pos (by simp [hqt])]
        rw [if_neg (by simp [hqt])] at hs
        exact ih hs d
      · rw [if_pos (by simp [hex, hqt])] at hs
        exact absurd hs (by simp)

theorem mem_survivorsOf {l : List Entry} {excl : String} {e : Entry} :
    e ∈ survivorsOf l excl ↔ e ∈ l ∧ e.version ≠ excl ∧ e.tag ≠ QUARANTINE_TAG := by
  unfold survivorsOf
  rw [List.mem_filter]
  simp

theorem bool_eq_of_iff {x y : Bool} (h : x = true ↔ y = true) : x = y := by
  cases x <;> cases y <;> simp_all

theorem scan_filter_eq_qualifying (l : List Entry) (excl : String) :
    l.filter (fun v => !(v.version == excl) && (dup_get (pick_dup l excl) v.version).isSome &&
      !(([] : List String).contains v.version)) = qualifyingOf l excl := by
  unfold qualifyingOf
  apply List.filter_congr
  intro v _
  apply bool_eq_of_iff
  simp only [show (([] : List String).contains v.version) = false from rfl, Bool.not_false,
    Bool.and_true, Bool.and_eq_true]
  rw [pick_dup_get_isSome_iff]

theorem mem_head?_filter {α : Type} {p : α → Bool} {l : List α} {x : α}
    (h : (l.filter p).head? = some x) : x ∈ l.filter p := by
  cases hf : l.filter p with
  | nil => rw [hf] at h; simp at h
  | cons a as =>
    rw [hf] at h
    simp only [List.head?_cons, Option.some.injEq] at h
    rw [← h]
    simp

theorem survivors_ne_nil_of_qual {l : List Entry} {excl : String} {q : Entry}
    (hq : (qualifyingOf l excl).head? = some q) : survivorsOf l excl ≠ [] := by
  intro hc
  have hqmem : q ∈ qualifyingOf l excl := mem_head?_filter (l := l) hq
  have hcond := (List.mem_filter.mp hqmem).2
  simp only [Bool.and_eq_true] at hcond
  obtain ⟨s, hsm, -⟩ := List.any_eq_true.mp hcond.2
  rw [hc] at hsm
  simp at hsm

theorem qual_head_some {l : List Entry} {excl : String} (hs : survivorsOf l excl ≠ []) :
    ∃ q, (qualifyingOf l excl).head? = some q := by
  obtain ⟨e, he⟩ := List.exists_mem_of_ne_nil _ hs
  have hmem : e ∈ qualifyingOf l excl := by
    unfold qualifyingOf
    refine List.mem_filter.mpr ⟨(mem_survivorsOf.mp he).1, ?_⟩
    simp only [Bool.and_eq_true]
    refine ⟨by simp [(mem_survivorsOf.mp he).2.1], ?_⟩
    exact List.any_eq_true.mpr ⟨e, he, by simp⟩
  cases hq : qualifyingOf l excl with
  | nil => rw [hq] at hmem; simp at hmem
  | cons a as => exact ⟨a, rfl⟩

/-- The value of `pick_next_latest` when a qualifying version exists:
the trusted-preferred entry among the survivors carrying the first
qualifying version string. -/
theorem pick_eq_of_qual {l : List Entry} {excl : String} {q : Entry}
    (hq : (qualifyingOf l excl).head? = some q) :
    pick_next_latest l excl =
      (match ((survivorsOf l excl).filter (fun v => v.version == q.version)).filter
          (fun c => c.release_status == TRUSTED) with
       | t :: _ => some t
       | [] => ((survivorsOf l excl).filter (fun v => v.version == q.version)).head?) := by
  have hs : survivorsOf l excl ≠ [] := survivors_ne_nil_of_qual hq
  unfold pick_next_latest
  rw [if_neg (fun hd => hs (by
    by_contra hns
    obtain ⟨e, he⟩ := List.exists_mem_of_ne_nil _ hns
    exact pick_dup_nonempty he (List.isEmpty_iff.mp hd)))]
  have hscan := ordered_scan_head (pick_dup l excl) l excl []
  rw [scan_filter_eq_qualifying, hq] at hscan
  cases hm : ordered_scan (pick_dup l excl) l excl [] with
  | nil => rw [hm] at hscan; simp at hscan
  | cons ver rest =>
    rw [hm] at hscan
    simp only [List.head?_cons, Option.map_some', Option.some.injEq] at hscan
    have hqmem : q ∈ qualifyingOf l excl := mem_head?_filter (l := l) hq
    have hqcond := (List.mem_filter.mp hqmem).2
    simp only [Bool.and_eq_true] at hqcond
    have hfs : (survivorsOf l excl).filter (fun v => v.version == q.version) ≠ [] := by
      intro hc
      obtain ⟨s, hsm, hsv⟩ := List.any_eq_true.mp hqcond.2
      have hmem2 : s ∈ (survivorsOf l excl).filter (fun v => v.version == q.version) :=
        List.mem_filter.mpr ⟨hsm, hsv⟩
      rw [hc] at hmem2
      simp at hmem2
    have hcands : dup_get (pick_dup l excl) ver =
        some ((survivorsOf l excl).filter (fun v => v.version == q.version)) := by
      rw [hscan, pick_dup_get, if_neg hfs]
    dsimp only
    rw [hcands]
    rfl

/-- Full characterization of `pick_next_latest`. -/
theorem pick_cases (l : List Entry) (excl : String) :
    (pick_next_latest l excl = none ∧ survivorsOf l excl = []) ∨
    (∃ e q, pick_next_latest l excl = some e ∧
      (qualifyingOf l excl).head? = some q ∧ e.version = q.version ∧ e ∈ survivorsOf l excl ∧
      (let cands := (survivorsOf l excl).filter (fun v => v.version == q.version)
       if cands.any (fun c => c.release_status == TRUSTED)
       then (cands.filter (fun c => c.release_status == TRUSTED)).head? = some e
       else cands.head? = some e)) := by
  by_cases hs : survivorsOf l excl = []
  · left
    refine ⟨?_, hs⟩
    unfold pick_next_latest
    rw [if_pos (List.isEmpty_iff.mpr (pick_dup_empty_of_no_survivors hs))]
  · right
    obtain ⟨q, hq⟩ := qual_head_some hs
    have hval := pick_eq_of_qual hq
    set cands := (survivorsOf l excl).filter (fun v => v.version == q.version) with hcdef
    cases ht : cands.filter (fun c => c.release_status == TRUSTED) with
    | cons t ts =>
      rw [ht] at hval
      have htm : t ∈ cands.filter (fun c => c.release_status == TRUSTED) := by
        rw [ht]; simp
      have htc := List.mem_filter.mp htm
      have htcand := List.mem_filter.mp htc.1
      refine ⟨t, q, hval, hq, by simpa using htcand.2, htcand.1, ?_⟩
      show (if cands.any (fun c => c.release_status == TRUSTED) = true
        then (cands.filter (fun c => c.release_status == TRUSTED)).head? = some t
        else cands.head? = some t)
      rw [if_pos (List.any_eq_true.mpr ⟨t, htc.1, htc.2⟩), ht]
      rfl
    | nil =>
      rw [ht] at hval
      have hfs : cands ≠ [] := by
        intro hc
        have hqmem : q ∈ qualifyingOf l excl := mem_head?_filter (l := l) hq
        have hqcond := (List.mem_filter.mp hqmem).2
        simp only [Bool.and_eq_true] at hqcond
        obtain ⟨s, hsm, hsv⟩ := List.any_eq_true.mp hqcond.2
        have hmem2 : s ∈ cands := List.mem_filter.mpr ⟨hsm, hsv⟩
        rw [hc] at hmem2
        simp at hmem2
      obtain ⟨e, he⟩ := List.exists_mem_of_ne_nil _ hfs
      cases hcs : cands with
      | nil => exact absurd hcs hfs
      | cons c0 cs =>
        have hval' : pick_next_latest l excl = some c0 := by
          rw [hval, hcs]
          rfl
        have hc0 : c0 ∈ cands := by rw [hcs]; simp
        have hc0f := List.mem_filter.mp hc0
        refine ⟨c0, q, hval', hq, by simpa using hc0f.2, hc0f.1, ?_⟩
        show (if cands.any (fun c => c.release_status == TRUSTED) = true
          then (cands.filter (fun c => c.release_status == TRUSTED)).head? = some c0
          else cands.head? = some c0)
        rw [if_neg (by
          intro hc
          obtain ⟨s, hsm, hst⟩ := List.any_eq_true.mp hc
          have : s ∈ cands.filter (fun c => c.release_status == TRUSTED) :=
            List.mem_filter.mpr ⟨hsm, hst⟩
          rw [ht] at this
          simp at this), hcs]
        rfl

/-! ### Facts about `rollback_in_prod` -/

theorem rollback_notfound {entries : List RawEntry} {target : String}
    (h : dict_get (by_version_of (get_prod_versions entries)) target = none)
    (dry rbOk : Bool) :
    rollback_in_prod entries target dry rbOk =
      ([Call.list], Except.error ("Target version not found in PROD set: " ++ target)) := by
  unfold rollback_in_prod
  dsimp only
  rw [h]

theorem rollback_found_dry {entries : List RawEntry} {target : String} {tgt : Entry}
    (h : dict_get (by_version_of (get_prod_versions entries)) target = some tgt)
    (rbOk : Bool) :
    rollback_in_prod entries target true rbOk = ([Call.list], Except.ok ()) := by
  unfold rollback_in_prod
  dsimp only
  rw [h]
  dsimp only
  by_cases hl : (tgt.tag == LATEST_TAG) = true
  · rw [if_neg (by simp), if_pos hl]
    cases pick_next_latest (get_prod_versions entries) target with
    | none => simp [backup_tag_then_patch]
    | some cand => simp [backup_tag_then_patch]
  · rw [if_neg (by simp), if_neg hl]
    simp [backup_tag_then_patch]

theorem rollback_found_wet_fail {entries : List RawEntry} {target : String} {tgt : Entry}
    (h : dict_get (by_version_of (get_prod_versions entries)) target = some tgt) :
    rollback_in_prod entries target false false =
      ([Call.list, Call.rollback target "PROD"],
        Except.error "AppTrust rollback API call failed") := by
  unfold rollback_in_prod
  dsimp only
  rw [h]
  dsimp only
  rw [if_pos (by simp)]
  simp

theorem rollback_found_wet_ok {entries : List RawEntry} {target : String} {tgt : Entry}
    (h : dict_get (by_version_of (get_prod_versions entries)) target = some tgt) :
    rollback_in_prod entries target false true =
      (if tgt.tag == LATEST_TAG then
        match pick_next_latest (get_prod_versions entries) target with
        | none => ([Call.list, Call.rollback target "PROD",
            Call.patch target QUARANTINE_TAG BACKUP_BEFORE_QUARANTINE tgt.tag], Except.ok ())
        | some cand => ([Call.list, Call.rollback target "PROD",
            Call.patch target QUARANTINE_TAG BACKUP_BEFORE_QUARANTINE tgt.tag,
            Call.patch cand.version LATEST_TAG BACKUP_BEFORE_LATEST cand.tag], Except.ok ())
       else ([Call.list, Call.rollback target "PROD",
            Call.patch target QUARANTINE_TAG BACKUP_BEFORE_QUARANTINE tgt.tag],
          Except.ok ())) := by
  unfold rollback_in_prod
  dsimp only
  rw [h]
  dsimp only
  by_cases hl : (tgt.tag == LATEST_TAG) = true
  · rw [if_neg (by simp), if_pos hl, if_pos hl]
    cases pick_next_latest (get_prod_versions entries) target with
    | none => simp [backup_tag_then_patch]
    | some cand => simp [backup_tag_then_patch]
  · rw [if_neg (by simp), if_neg hl, if_neg hl]
    simp [backup_tag_then_patch]

/-! ### The claims -/

/-- C4: for every pair of version strings accepted by `SemVer.parse`,
`compare_semver` agrees with the spec's semantic-version precedence
(`spec_lt`, modelled from the spec); in particular `1.0.0 < 2.0.0`,
`1.0.0-alpha < 1.0.0`, `1.0.0-alpha < 1.0.0-alpha.1`,
`1.0.0-alpha.beta < 1.0.0-beta`, and `1.0.0+a`, `1.0.0+b` compare
equal (build metadata ignored). -/
theorem claim_C4_comparator_standard_precedence :
    (∀ (s t : String) (a b : SemVer), SemVer.parse s = some a → SemVer.parse t = some b →
      (compare_semver a b < 0 ↔ spec_lt a b = true)) ∧
    cmp_str "1.0.0" "2.0.0" = some (-1) ∧
    cmp_str "1.0.0-alpha" "1.0.0" = some (-1) ∧
    cmp_str "1.0.0-alpha" "1.0.0-alpha.1" = some (-1) ∧
    cmp_str "1.0.0-alpha.beta" "1.0.0-beta" = some (-1) ∧
    cmp_str "1.0.0+a" "1.0.0+b" = some 0 :=
  ⟨fun _ _ a b _ _ => cmp_lt_iff_spec_lt a b, rfl, rfl, rfl, rfl, rfl⟩

theorem claim_C4_witness :
    spec_lt ⟨1, 0, 0, [], "1.0.0"⟩ ⟨2, 0, 0, [], "2.0.0"⟩ = true :=
  (claim_C4_comparator_standard_precedence.1 "1.0.0" "2.0.0"
    ⟨1, 0, 0, [], "1.0.0"⟩ ⟨2, 0, 0, [], "2.0.0"⟩ rfl rfl).mp (by decide)

/-- C5: on parsed versions, `compare_semver` is a strict total order on
precedence classes: reflexively zero, antisymmetric in sign, transitive
in strict comparisons, and zero exactly on equal major, minor, patch
and prerelease (build metadata and original string not participating). -/
theorem claim_C5_comparator_total_order :
    ∀ (sa sb sc : String) (a b c : SemVer),
    SemVer.parse sa = some a → SemVer.parse sb = some b → SemVer.parse sc = some c →
    compare_semver a a = 0 ∧
    compare_semver a b = -compare_semver b a ∧
    (compare_semver a b < 0 → compare_semver b c < 0 → compare_semver a c < 0) ∧
    (compare_semver a b = 0 ↔
      a.major = b.major ∧ a.minor = b.minor ∧ a.patch = b.patch ∧
        a.prerelease = b.prerelease) := by
  intro sa sb sc a b c ha hb _
  exact ⟨compare_semver_self a, compare_semver_neg a b,
    fun h1 h2 => compare_semver_trans_lt h1 h2,
    compare_semver_zero_iff_valid (parse_valid_prerelease ha) (parse_valid_prerelease hb)⟩

theorem claim_C5_witness :
    compare_semver ⟨1, 0, 0, ["alpha"], "1.0.0-alpha"⟩ ⟨1, 0, 0, [], "1.0.0"⟩ < 0 :=
  (claim_C5_comparator_total_order "1.0.0-alpha" "1.0.0-beta" "1.0.0"
    ⟨1, 0, 0, ["alpha"], "1.0.0-alpha"⟩ ⟨1, 0, 0, ["beta"], "1.0.0-beta"⟩
    ⟨1, 0, 0, [], "1.0.0"⟩ rfl rfl rfl).2.2.1 (by decide) (by decide)

/-- C8: the end-to-end scenario: entries 2.0.0 (latest, RELEASED),
1.5.0 (no tag, TRUSTED_RELEASE), 1.0.0 (quarantine, RELEASED); a
non-dry-run rollback of 2.0.0 invokes the remote rollback, quarantines
2.0.0 recording prior tag "latest", selects 1.5.0 as successor
(skipping quarantined 1.0.0) and promotes it recording prior tag "". -/
theorem claim_C8_end_to_end_scenario :
    rollback_in_prod
      [⟨"2.0.0", some "latest", "RELEASED"⟩,
       ⟨"1.5.0", some "", "TRUSTED_RELEASE"⟩,
       ⟨"1.0.0", some "quarantine", "RELEASED"⟩] "2.0.0" false true =
    ([Call.list, Call.rollback "2.0.0" "PROD",
      Call.patch "2.0.0" "quarantine" "original_tag_before_quarantine" "latest",
      Call.patch "1.5.0" "latest" "original_tag_before_latest" ""], Except.ok ()) := by
  rfl

/-- C2, counterexample: `get_prod_versions` does not drop eligible
entries whose version string fails to parse ("abc" is returned), and
ties of equal precedence with duplicated version strings do not keep
input relative order (the "v1.0.0" before "1.0.0" input order is
reversed in the output because the duplicated string keys both
duplicates to the last position). -/
theorem claim_C2_counterexample :
    get_prod_versions
      [⟨"v1.0.0", some "", "RELEASED"⟩, ⟨"1.0.0", some "", "RELEASED"⟩,
       ⟨"v1.0.0", some "", "RELEASED"⟩, ⟨"abc", some "", "RELEASED"⟩] =
      [⟨"1.0.0", "", "RELEASED"⟩, ⟨"v1.0.0", "", "RELEASED"⟩,
       ⟨"v1.0.0", "", "RELEASED"⟩, ⟨"abc", "", "RELEASED"⟩] ∧
    SemVer.parse "abc" = none ∧
    (∃ a b, SemVer.parse "v1.0.0" = some a ∧ SemVer.parse "1.0.0" = some b ∧
      compare_semver a b = 0) :=
  ⟨rfl, rfl, ⟨⟨1, 0, 0, [], "v1.0.0"⟩, ⟨1, 0, 0, [], "1.0.0"⟩, rfl, rfl, by decide⟩⟩

/-- C3: `pick_next_latest` never returns the excluded version or a
quarantined entry; it returns `none` exactly when no entry survives
those two exclusions; otherwise, for the highest-ranked surviving
distinct version string (the head of `qualifyingOf`), it returns the
first TRUSTED_RELEASE entry carrying it when one exists, else the
first-encountered entry carrying it. -/
theorem claim_C3_pick_next_latest_characterization :
    ∀ (l : List Entry) (excl : String),
    (pick_next_latest l excl = none ↔ survivorsOf l excl = []) ∧
    (∀ e, pick_next_latest l excl = some e →
      e.version ≠ excl ∧ e.tag ≠ QUARANTINE_TAG ∧
      ∃ q, (qualifyingOf l excl).head? = some q ∧ e.version = q.version ∧
        (let cands := (survivorsOf l excl).filter (fun v => v.version == q.version)
         if cands.any (fun c => c.release_status == TRUSTED)
         then (cands.filter (fun c => c.release_status == TRUSTED)).head? = some e
         else cands.head? = some e)) := by
  intro l excl
  rcases pick_cases l excl with ⟨hnone, hsurv⟩ | ⟨e0, q, hval, hq, hver, hmem, hsel⟩
  · constructor
    · rw [hnone, hsurv]
      simp
    · intro e he
      rw [hnone] at he
      exact absurd he (by simp)
  · constructor
    · rw [hval]
      constructor
      · intro hc
        exact absurd hc (by simp)
      · intro hc
        rw [hc] at hmem
        exact absurd hmem (by simp)
    · intro e he
      rw [hval] at he
      have he0 : e0 = e := by simpa using he
      subst he0
      have hsv := mem_survivorsOf.mp hmem
      exact ⟨hsv.2.1, hsv.2.2, q, hq, hver, hsel⟩

theorem claim_C3_witness :
    (⟨"1.5.0", "", "TRUSTED_RELEASE"⟩ : Entry).version ≠ "2.0.0" :=
  ((claim_C3_pick_next_latest_characterization
    [⟨"1.5.0", "", "TRUSTED_RELEASE"⟩] "2.0.0").2
    ⟨"1.5.0", "", "TRUSTED_RELEASE"⟩ rfl).1

/-- C6: for every registry response and target, a dry run performs the
read-only list fetch and the same validation decision as a real run
(identical outcome), but issues no mutating call: its trace is exactly
the list fetch. -/
theorem claim_C6_dry_run_no_mutations :
    ∀ (entries : List RawEntry) (target : String) (rollback_ok : Bool),
    (rollback_in_prod entries target true rollback_ok).1 = [Call.list] ∧
    (rollback_in_prod entries target true rollback_ok).2 =
      (rollback_in_prod entries target false true).2 := by
  intro entries target rbOk
  cases h : dict_get (by_version_of (get_prod_versions entries)) target with
  | none =>
    rw [rollback_notfound h true rbOk, rollback_notfound h false true]
    exact ⟨rfl, rfl⟩
  | some tgt =>
    have hw : (rollback_in_prod entries target false true).2 = Except.ok () := by
      rw [rollback_found_wet_ok h]
      by_cases hl : (tgt.tag == LATEST_TAG) = true
      · rw [if_pos hl]
        cases pick_next_latest (get_prod_versions entries) target <;> rfl
      · rw [if_neg hl]
    rw [rollback_found_dry h rbOk, hw]
    exact ⟨rfl, rfl⟩

/-- C7: in a non-dry-run execution, every remote rollback call targets
the requested version from stage PROD; if the target is absent from
the eligible set the run aborts with the not-found error and no
mutating call; if the remote rollback fails no tag-patch is issued;
and any tag-patch in the trace comes after the list fetch and a
successful remote rollback call. -/
theorem claim_C7_no_patch_before_validation_and_rollback :
    ∀ (entries : List RawEntry) (target : String) (rollback_ok : Bool),
    (∀ v s, Call.rollback v s ∈ (rollback_in_prod entries target false rollback_ok).1 →
      v = target ∧ s = "PROD") ∧
    (dict_get (by_version_of (get_prod_versions entries)) target = none →
      (rollback_in_prod entries target false rollback_ok).2 =
        Except.error ("Target version not found in PROD set: " ++ target) ∧
      ∀ c ∈ (rollback_in_prod entries target false rollback_ok).1, c = Call.list) ∧
    (rollback_ok = false →
      ∀ v tg k pv, Call.patch v tg k pv ∉ (rollback_in_prod entries target false rollback_ok).1) ∧
    (∀ v tg k pv, Call.patch v tg k pv ∈ (rollback_in_prod entries target false rollback_ok).1 →
      rollback_ok = true ∧
      ∃ rest, (rollback_in_prod entries target false rollback_ok).1 =
        Call.list :: Call.rollback target "PROD" :: rest ∧ Call.patch v tg k pv ∈ rest) := by
  intro entries target rbOk
  cases h : dict_get (by_version_of (get_prod_versions entries)) target with
  | none =>
    rw [rollback_notfound h false rbOk]
    refine ⟨?_, fun _ => ⟨rfl, ?_⟩, ?_, ?_⟩
    · intro v s hv
      simp at hv
    · intro c hc
      simpa using hc
    · intro _ v tg k pv hv
      simp at hv
    · intro v tg k pv hv
      simp at hv
  | some tgt =>
    cases rbOk with
    | false =>
      rw [rollback_found_wet_fail h]
      refine ⟨?_, fun hc => absurd hc (by simp), ?_, ?_⟩
      · intro v s hv
        simp at hv
        exact hv
      · intro _ v tg k pv hv
        simp at hv
      · intro v tg k pv hv
        simp at hv
    | true =>
      rw [rollback_found_wet_ok h]
      by_cases hl : (tgt.tag == LATEST_TAG) = true
      · rw [if_pos hl]
        cases hp : pick_next_latest (get_prod_versions entries) target with
        | none =>
          refine ⟨?_, fun hc => absurd hc (by simp), ?_, ?_⟩
          · intro v s hv
            simp at hv
            exact hv
          · intro hc
            exact absurd hc (by simp)
          · intro v tg k pv hv
            simp only [List.mem_cons] at hv
            rcases hv with hv | hv | hv | hv
            · exact absurd hv (by simp)
            · exact absurd hv (by simp)
            · exact ⟨rfl, [Call.patch target QUARANTINE_TAG BACKUP_BEFORE_QUARANTINE tgt.tag],
                rfl, by rw [hv]; simp⟩
            · simp at hv
        | some cand =>
          refine ⟨?_, fun hc => absurd hc (by simp), ?_, ?_⟩
          · intro v s hv
            simp at hv
            exact hv
          · intro hc
            exact absurd hc (by simp)
          · intro v tg k pv hv
            simp only [List.mem_cons] at hv
            rcases hv with hv | hv | hv | hv | hv
            · exact absurd hv (by simp)
            · exact absurd hv (by simp)
            · exact ⟨rfl, [Call.patch target QUARANTINE_TAG BACKUP_BEFORE_QUARANTINE tgt.tag,
                Call.patch cand.version LATEST_TAG BACKUP_BEFORE_LATEST cand.tag],
                rfl, by rw [hv]; simp⟩
            · exact ⟨rfl, [Call.patch target QUARANTINE_TAG BACKUP_BEFORE_QUARANTINE tgt.tag,
                Call.patch cand.version LATEST_TAG BACKUP_BEFORE_LATEST cand.tag],
                rfl, by rw [hv]; simp⟩
            · simp at hv
      · rw [if_neg hl]
        refine ⟨?_, fun hc => absurd hc (by simp), ?_, ?_⟩
        · intro v s hv
          simp at hv
          exact hv
        · intro hc
          exact absurd hc (by simp)
        · intro v tg k pv hv
          simp only [List.mem_cons] at hv
          rcases hv with hv | hv | hv | hv
          · exact absurd hv (by simp)
          · exact absurd hv (by simp)
          · exact ⟨rfl, [Call.patch target QUARANTINE_TAG BACKUP_BEFORE_QUARANTINE tgt.tag],
              rfl, by rw [hv]; simp⟩
          · simp at hv

theorem claim_C7_witness :
    Call.patch "2.0.0" "quarantine" BACKUP_BEFORE_QUARANTINE "latest" ∉
      (rollback_in_prod
        [⟨"2.0.0", some "latest", "RELEASED"⟩,
         ⟨"1.5.0", some "", "TRUSTED_RELEASE"⟩,
         ⟨"1.0.0", some "quarantine", "RELEASED"⟩] "2.0.0" false false).1 :=
  (claim_C7_no_patch_before_validation_and_rollback
    [⟨"2.0.0", some "latest", "RELEASED"⟩,
     ⟨"1.5.0", some "", "TRUSTED_RELEASE"⟩,
     ⟨"1.0.0", some "quarantine", "RELEASED"⟩] "2.0.0" false).2.2.1 rfl
    "2.0.0" "quarantine" BACKUP_BEFORE_QUARANTINE "latest"

/-- C10: when the ranked eligible list contains more than one entry
with the target's version string, `rollback_in_prod` resolves the
target to the last such entry in ranked order (the `by_version` dict
keeps the last duplicate): the prior tag recorded in the quarantine
backup is that entry's, and the latest-reassignment decision is made
from that entry's tag. -/
theorem claim_C10_duplicate_target_resolves_to_last :
    ∀ (entries : List RawEntry) (target : String),
    2 ≤ ((get_prod_versions entries).filter (fun e => e.version == target)).length →
    ∃ e, (get_prod_versions entries).reverse.find? (fun v => v.version == target) = some e ∧
      dict_get (by_version_of (get_prod_versions entries)) target = some e ∧
      Call.patch target QUARANTINE_TAG BACKUP_BEFORE_QUARANTINE e.tag ∈
        (rollback_in_prod entries target false true).1 ∧
      ((∃ v k pv, Call.patch v LATEST_TAG k pv ∈ (rollback_in_prod entries target false true).1)
        ↔ (e.tag = LATEST_TAG ∧ pick_next_latest (get_prod_versions entries) target ≠ none)) := by
  intro entries target hdup
  have hne : (get_prod_versions entries).filter (fun e => e.version == target) ≠ [] := by
    intro hc
    rw [hc] at hdup
    simp at hdup
  obtain ⟨e0, he0⟩ := List.exists_mem_of_ne_nil _ hne
  have he0' := List.mem_filter.mp he0
  have hsome : (dict_get (by_version_of (get_prod_versions entries)) target).isSome = true :=
    by_version_get_isSome he0'.1 (by simpa using he0'.2)
  cases h : dict_get (by_version_of (get_prod_versions entries)) target with
  | none => rw [h] at hsome; simp at hsome
  | some e =>
    refine ⟨e, ?_, rfl, ?_, ?_⟩
    · rw [← by_version_get]
      exact h
    · rw [rollback_found_wet_ok h]
      by_cases hl : (e.tag == LATEST_TAG) = true
      · rw [if_pos hl]
        cases pick_next_latest (get_prod_versions entries) target <;> simp
      · rw [if_neg hl]
        simp
    · rw [rollback_found_wet_ok h]
      by_cases hl : (e.tag == LATEST_TAG) = true
      · rw [if_pos hl]
        cases hp : pick_next_latest (get_prod_versions entries) target with
        | none =>
          constructor
          · rintro ⟨v, k, pv, hv⟩
            simp [LATEST_TAG, QUARANTINE_TAG] at hv
          · rintro ⟨-, hpn⟩
            exact absurd rfl hpn
        | some cand =>
          constructor
          · intro _
            refine ⟨?_, by simp⟩
            have hl' := hl
            simp only [beq_iff_eq] at hl'
            exact hl'
          · intro _
            refine ⟨cand.version, BACKUP_BEFORE_LATEST, cand.tag, ?_⟩
            simp
      · rw [if_neg hl]
        constructor
        · rintro ⟨v, k, pv, hv⟩
          simp [LATEST_TAG, QUARANTINE_TAG] at hv
        · rintro ⟨hle, -⟩
          exact absurd (by simp [hle] : (e.tag == LATEST_TAG) = true) hl

theorem claim_C10_witness :
    ∃ e, (get_prod_versions
        [⟨"1.0.0", some "", "RELEASED"⟩, ⟨"1.0.0", some "latest", "TRUSTED_RELEASE"⟩]).reverse.find?
        (fun v => v.version == "1.0.0") = some e ∧
      dict_get (by_version_of (get_prod_versions
        [⟨"1.0.0", some "", "RELEASED"⟩, ⟨"1.0.0", some "latest", "TRUSTED_RELEASE"⟩])) "1.0.0" =
        some e ∧
      Call.patch "1.0.0" QUARANTINE_TAG BACKUP_BEFORE_QUARANTINE e.tag ∈
        (rollback_in_prod
          [⟨"1.0.0", some "", "RELEASED"⟩, ⟨"1.0.0", some "latest", "TRUSTED_RELEASE"⟩]
          "1.0.0" false true).1 ∧
      ((∃ v k pv, Call.patch v LATEST_TAG k pv ∈
          (rollback_in_prod
            [⟨"1.0.0", some "", "RELEASED"⟩, ⟨"1.0.0", some "latest", "TRUSTED_RELEASE"⟩]
            "1.0.0" false true).1)
        ↔ (e.tag = LATEST_TAG ∧ pick_next_latest (get_prod_versions
            [⟨"1.0.0", some "", "RELEASED"⟩, ⟨"1.0.0", some "latest", "TRUSTED_RELEASE"⟩])
            "1.0.0" ≠ none)) :=
  claim_C10_duplicate_target_resolves_to_last
    [⟨"1.0.0", some "", "RELEASED"⟩, ⟨"1.0.0", some "latest", "TRUSTED_RELEASE"⟩]
    "1.0.0" (by decide)

theorem prod_order_mem_isSome {versions : List RawEntry} {s : String}
    (h : s ∈ prod_order versions) : (SemVer.parse s).isSome = true :=
  mem_order_isSome h

theorem mem_norm_version_in_order {versions : List RawEntry} {e : Entry}
    (he : e ∈ norm_entries versions) (hp : (SemVer.parse e.version).isSome = true) :
    e.version ∈ prod_order versions := by
  unfold prod_order
  exact mem_order_of_mem (List.mem_map.mpr ⟨e, he, rfl⟩) hp

theorem prodKey_lt_of_parsable {versions : List RawEntry} {e : Entry}
    (he : e ∈ norm_entries versions) (hp : (SemVer.parse e.version).isSome = true)
    (hlen : versions.length ≤ 10 ^ 9) :
    prodKey (prod_order versions) e < 10 ^ 9 := by
  obtain ⟨k, -, hkey, hklt⟩ := prodKey_mem (mem_norm_version_in_order he hp)
  rw [hkey]
  exact lt_of_lt_of_le hklt (le_trans (prod_order_length_le versions) hlen)

theorem prodKey_unparsable_prod {versions : List RawEntry} {e : Entry}
    (h : SemVer.parse e.version = none) : prodKey (prod_order versions) e = 10 ^ 9 :=
  prodKey_unparsable (fun s hs => prod_order_mem_isSome hs) h

/-- C9: `get_prod_versions` does not drop eligible entries whose
version string fails to parse: they are retained (same filtered
subsequence as the normalized input, preserving relative order) and
placed after all parsable entries; consequently an eligible rollback
target with an unparsable version string is still found and the run
does not abort with the not-found condition. -/
theorem claim_C9_unparsable_entries_retained :
    ∀ (versions : List RawEntry), versions.length ≤ 10 ^ 9 →
    ((get_prod_versions versions).filter (fun e => (SemVer.parse e.version).isNone) =
      (norm_entries versions).filter (fun e => (SemVer.parse e.version).isNone)) ∧
    (∀ i j (hi : i < (get_prod_versions versions).length)
        (hj : j < (get_prod_versions versions).length), i < j →
      SemVer.parse ((get_prod_versions versions).get ⟨i, hi⟩).version = none →
      SemVer.parse ((get_prod_versions versions).get ⟨j, hj⟩).version = none) ∧
    (∀ target : String, SemVer.parse target = none →
      (∃ e ∈ norm_entries versions, e.version = target) →
      (rollback_in_prod versions target true true).2 = Except.ok ()) := by
  intro versions hlen
  refine ⟨?_, ?_, ?_⟩
  · rw [get_prod_versions_eq]
    apply insSort_filter
    intro x y hx hy
    unfold prodLe
    rw [show sort_versions_by_semver_desc ((norm_entries versions).map (fun v => v.version)) =
      prod_order versions from rfl]
    rw [prodKey_unparsable_prod (Option.isNone_iff_eq_none.mp hx),
      prodKey_unparsable_prod (Option.isNone_iff_eq_none.mp hy)]
    simp
  · intro i j hi hj hij hpi
    have hpw := get_prod_versions_pairwise versions
    rw [List.pairwise_iff_get] at hpw
    have hle := hpw ⟨i, hi⟩ ⟨j, hj⟩ hij
    unfold prodLe at hle
    simp only [decide_eq_true_eq] at hle
    rw [prodKey_unparsable_prod hpi] at hle
    cases hpj : SemVer.parse ((get_prod_versions versions).get ⟨j, hj⟩).version with
    | none => rfl
    | some b =>
      have hmem : ((get_prod_versions versions).get ⟨j, hj⟩) ∈ norm_entries versions :=
        (get_prod_versions_perm versions).mem_iff.mp (List.get_mem _ _ _)
      have := prodKey_lt_of_parsable hmem (by rw [hpj]; rfl) hlen
      omega
  · intro target hunp ⟨e, he, hev⟩
    have hmem : e ∈ get_prod_versions versions :=
      (get_prod_versions_perm versions).mem_iff.mpr he
    have hsome := by_version_get_isSome hmem hev
    cases h : dict_get (by_version_of (get_prod_versions versions)) target with
    | none => rw [h] at hsome; simp at hsome
    | some tgt => rw [rollback_found_dry h true]

theorem claim_C9_witness :
    (rollback_in_prod [⟨"abc", none, "RELEASED"⟩] "abc" true true).2 = Except.ok () :=
  (claim_C9_unparsable_entries_retained [⟨"abc", none, "RELEASED"⟩] (by norm_num)).2.2
    "abc" rfl ⟨⟨"abc", "", "RELEASED"⟩, by decide, rfl⟩

theorem prod_order_nodup {versions : List RawEntry}
    (h : ((norm_entries versions).map (fun v => v.version)).Nodup) :
    (prod_order versions).Nodup := by
  unfold prod_order
  exact (order_perm _).nodup_iff.mpr (h.filter _)

theorem tie_sublist {versions : List RawEntry} {e1 e2 : Entry} {a b : SemVer}
    (hnd : ((norm_entries versions).map (fun v => v.version)).Nodup)
    (hsub : [e1, e2].Sublist (norm_entries versions))
    (h1 : SemVer.parse e1.version = some a) (h2 : SemVer.parse e2.version = some b)
    (hcmp : compare_semver a b = 0) :
    [e1, e2].Sublist (get_prod_versions versions) := by
  have hsubv : [e1.version, e2.version].Sublist ((norm_entries versions).map (fun v => v.version)) :=
    hsub.map _
  have hsubp := hsubv.filterMap (fun v => (SemVer.parse v).map (fun sv => (sv, v)))
  rw [show [e1.version, e2.version].filterMap (fun v => (SemVer.parse v).map (fun sv => (sv, v))) =
    [(a, e1.version), (b, e2.version)] from by simp [List.filterMap_cons, h1, h2]] at hsubp
  have hsorted := pair_sublist_insSort semverDescLe hsubp
    (by unfold semverDescLe; simp [hcmp])
  have hsubo : [e1.version, e2.version].Sublist (prod_order versions) := by
    have := hsorted.map (fun (t : SemVer × String) => t.2)
    exact this
  obtain ⟨ka, kb, hka, hkb, hklt⟩ := lastIdx_sublist_lt (prod_order_nodup hnd) hsubo
  have hle : prodLe (prod_order versions) e1 e2 = true := by
    unfold prodLe prodKey
    rw [hka, hkb]
    simp
    omega
  rw [get_prod_versions_eq]
  exact pair_sublist_insSort _ hsub hle

/-- C2, amended: `get_prod_versions` returns exactly the entries whose
release status, compared case-insensitively, is TRUSTED_RELEASE or
RELEASED (a permutation of the normalized eligible entries — entries
with any other status are dropped silently); entries with parsable
version strings appear sorted non-increasing by semver precedence;
entries sharing one version string keep their input relative order;
and when the version strings are pairwise distinct, ties of equal
precedence with different strings also keep input relative order.
(Unparsable-version entries are retained, not dropped — see the
counterexample — and with duplicated version strings a tie can be
reordered, since the sort keys every duplicate to the position of the
last occurrence.) -/
theorem claim_C2_amended_eligibility_and_order :
    ∀ (versions : List RawEntry), versions.length ≤ 10 ^ 9 →
    ((get_prod_versions versions).Perm (norm_entries versions)) ∧
    (∀ i j (hi : i < (get_prod_versions versions).length)
        (hj : j < (get_prod_versions versions).length), i < j →
      ∀ a b, SemVer.parse ((get_prod_versions versions).get ⟨i, hi⟩).version = some a →
        SemVer.parse ((get_prod_versions versions).get ⟨j, hj⟩).version = some b →
        0 ≤ compare_semver a b) ∧
    (∀ v, (get_prod_versions versions).filter (fun e => e.version == v) =
      (norm_entries versions).filter (fun e => e.version == v)) ∧
    (((norm_entries versions).map (fun e => e.version)).Nodup →
      ∀ e1 e2 a b, [e1, e2].Sublist (norm_entries versions) →
        SemVer.parse e1.version = some a → SemVer.parse e2.version = some b →
        compare_semver a b = 0 → [e1, e2].Sublist (get_prod_versions versions)) := by
  intro versions _
  refine ⟨get_prod_versions_perm versions, ?_, ?_, ?_⟩
  · intro i j hi hj hij a b ha hb
    have hpw := get_prod_versions_pairwise versions
    rw [List.pairwise_iff_get] at hpw
    have hle := hpw ⟨i, hi⟩ ⟨j, hj⟩ hij
    unfold prodLe at hle
    simp only [decide_eq_true_eq] at hle
    have hmi : ((get_prod_versions versions).get ⟨i, hi⟩) ∈ norm_entries versions :=
      (get_prod_versions_perm versions).mem_iff.mp (List.get_mem _ _ _)
    have hmj : ((get_prod_versions versions).get ⟨j, hj⟩) ∈ norm_entries versions :=
      (get_prod_versions_perm versions).mem_iff.mp (List.get_mem _ _ _)
    obtain ⟨ki, hki, hkeyi, hklti⟩ :=
      prodKey_mem (mem_norm_version_in_order hmi (by rw [ha]; rfl))
    obtain ⟨kj, hkj, hkeyj, hkltj⟩ :=
      prodKey_mem (mem_norm_version_in_order hmj (by rw [hb]; rfl))
    rw [hkeyi, hkeyj] at hle
    have hgi := lastIdx_get? _ _ _ hki
    have hgj := lastIdx_get? _ _ _ hkj
    obtain ⟨hki', hgeti⟩ := List.get?_eq_some.mp hgi
    obtain ⟨hkj', hgetj⟩ := List.get?_eq_some.mp hgj
    rcases Nat.lt_or_ge ki kj with hk | hk
    · have hop := order_pairwise ((norm_entries versions).map (fun v => v.version))
      rw [show sort_versions_by_semver_desc ((norm_entries versions).map (fun v => v.version)) =
        prod_order versions from rfl, List.pairwise_iff_get] at hop
      have := hop ⟨ki, hki'⟩ ⟨kj, hkj'⟩ hk
      rw [hgeti, hgetj] at this
      exact this a b ha hb
    · have hkk : ki = kj := by omega
      rw [hkk] at hgi
      rw [hgj] at hgi
      have hvv : ((get_prod_versions versions).get ⟨j, hj⟩).version =
          ((get_prod_versions versions).get ⟨i, hi⟩).version := by
        simpa using hgi
      rw [hvv, ha] at hb
      have hab : a = b := by simpa using hb
      rw [hab, compare_semver_self]
  · intro v
    rw [get_prod_versions_eq]
    apply insSort_filter
    intro x y hx hy
    unfold prodLe prodKey
    have hxv : x.version = v := by simpa using hx
    have hyv : y.version = v := by simpa using hy
    rw [hxv, hyv]
    simp
  · intro hnd e1 e2 a b hsub h1 h2 hcmp
    exact tie_sublist hnd hsub h1 h2 hcmp

theorem claim_C2_amended_witness :
    (get_prod_versions
      [⟨"v1.0.0", some "", "RELEASED"⟩, ⟨"1.0.0", some "", "RELEASED"⟩,
       ⟨"v1.0.0", some "", "RELEASED"⟩, ⟨"abc", some "", "RELEASED"⟩]).Perm
      (norm_entries
        [⟨"v1.0.0", some "", "RELEASED"⟩, ⟨"1.0.0", some "", "RELEASED"⟩,
         ⟨"v1.0.0", some "", "RELEASED"⟩, ⟨"abc", some "", "RELEASED"⟩]) :=
  (claim_C2_amended_eligibility_and_order
    [⟨"v1.0.0", some "", "RELEASED"⟩, ⟨"1.0.0", some "", "RELEASED"⟩,
     ⟨"v1.0.0", some "", "RELEASED"⟩, ⟨"abc", some "", "RELEASED"⟩] (by norm_num)).1

/-! ### Support for the tag invariant -/

theorem countP_le_add {α : Type} (p q r : α → Bool) :
    ∀ l : List α, (∀ a ∈ l, r a = true → p a = true ∨ q a = true) →
      l.countP r ≤ l.countP p + l.countP q
  | [], _ => by simp
  | x :: xs, h => by
    rw [List.countP_cons, List.countP_cons, List.countP_cons]
    have ih := countP_le_add p q r xs (fun a ha => h a (by simp [ha]))
    by_cases hr : r x = true
    · rcases h x (by simp) hr with hp | hq
      · simp [hr, hp]
        omega
      · simp [hr, hq]
        omega
    · have hr' : r x = false := Bool.not_eq_true _ ▸ eq_false_of_ne_true hr
      simp [hr']
      omega

theorem two_distinct_countP {α : Type} [DecidableEq α] {l : List α} {a b : α} {p : α → Bool}
    (ha : a ∈ l) (hb : b ∈ l) (hne : a ≠ b) (hpa : p a = true) (hpb : p b = true) :
    2 ≤ l.countP p := by
  rw [List.countP_eq_length_filter]
  have ha' : a ∈ l.filter p := List.mem_filter.mpr ⟨ha, hpa⟩
  have hb' : b ∈ l.filter p := List.mem_filter.mpr ⟨hb, hpb⟩
  have hbe : b ∈ (l.filter p).erase a := (List.mem_erase_of_ne (fun h => hne h.symm)).mpr hb'
  have h1 : 0 < ((l.filter p).erase a).length := List.length_pos.mpr (fun h => by
    rw [h] at hbe
    simp at hbe)
  have h2 := List.length_erase_of_mem ha'
  omega

theorem countP_version_le_one {l : List RawEntry}
    (h : (l.map (fun e => e.version)).Nodup) (v : String) :
    l.countP (fun e => e.version == v) ≤ 1 := by
  have h1 : l.countP (fun e => e.version == v) =
      (l.map (fun e => e.version)).countP (fun s => s == v) := by
    rw [List.countP_map]
    rfl
  rw [h1, ← List.count_eq_countP]
  exact List.nodup_iff_count_le_one.mp h v

theorem mem_norm_entries_iff {versions : List RawEntry} {e : Entry} :
    e ∈ norm_entries versions ↔ ∃ raw ∈ versions,
      (py_upper raw.release_status == TRUSTED || py_upper raw.release_status == RELEASED) = true ∧
      e = ⟨raw.version, raw.tag.getD "", py_upper raw.release_status⟩ := by
  unfold norm_entries
  rw [List.mem_filterMap]
  constructor
  · rintro ⟨raw, hraw, hf⟩
    by_cases hc : (py_upper raw.release_status == TRUSTED ||
        py_upper raw.release_status == RELEASED) = true
    · rw [if_pos hc] at hf
      exact ⟨raw, hraw, hc, by simpa using hf.symm⟩
    · rw [if_neg hc] at hf
      exact absurd hf (by simp)
  · rintro ⟨raw, hraw, hc, he⟩
    exact ⟨raw, hraw, by rw [if_pos hc, he]⟩

theorem filterMap_map_sublist {α β γ : Type} (f : α → Option β) (g : β → γ) (h : α → γ)
    (hf : ∀ x b, f x = some b → g b = h x) :
    ∀ l : List α, ((l.filterMap f).map g).Sublist (l.map h)
  | [] => by simp
  | x :: xs => by
    rw [List.filterMap_cons, List.map_cons]
    cases hfx : f x with
    | none => exact (filterMap_map_sublist f g h hf xs).cons _
    | some b =>
      rw [List.map_cons, hf x b hfx]
      exact (filterMap_map_sublist f g h hf xs).cons₂ _

theorem norm_version_sublist (versions : List RawEntry) :
    ((norm_entries versions).map (fun e => e.version)).Sublist
      (versions.map (fun e => e.version)) := by
  unfold norm_entries
  apply filterMap_map_sublist
  intro x b hb
  have hb' : (if (py_upper x.release_status == TRUSTED ||
      py_upper x.release_status == RELEASED) = true then
      some (⟨x.version, x.tag.getD "", py_upper x.release_status⟩ : Entry)
    else none) = some b := hb
  by_cases hc : (py_upper x.release_status == TRUSTED ||
      py_upper x.release_status == RELEASED) = true
  · rw [if_pos hc] at hb'
    have : (⟨x.version, x.tag.getD "", py_upper x.release_status⟩ : Entry) = b := by
      simpa using hb'
    rw [← this]
  · rw [if_neg hc] at hb'
    exact absurd hb' (by simp)

theorem prod_versions_nodup {entries : List RawEntry}
    (h : (entries.map (fun e => e.version)).Nodup) :
    ((get_prod_versions entries).map (fun e => e.version)).Nodup := by
  have h1 : ((norm_entries entries).map (fun e => e.version)).Nodup :=
    (norm_version_sublist entries).nodup h
  exact ((get_prod_versions_perm entries).map _).nodup_iff.mpr h1

theorem prod_version_inj {entries : List RawEntry}
    (h : (entries.map (fun e => e.version)).Nodup) {e1 e2 : Entry}
    (h1 : e1 ∈ get_prod_versions entries) (h2 : e2 ∈ get_prod_versions entries)
    (hv : e1.version = e2.version) : e1 = e2 :=
  List.inj_on_of_nodup_map (prod_versions_nodup h) h1 h2 hv

theorem countP_le_countP {α : Type} (p q : α → Bool) :
    ∀ l : List α, (∀ a ∈ l, p a = true → q a = true) → l.countP p ≤ l.countP q
  | [], _ => by simp
  | x :: xs, h => by
    rw [List.countP_cons, List.countP_cons]
    have ih := countP_le_countP p q xs (fun a ha => h a (by simp [ha]))
    by_cases hp : p x = true
    · simp [hp, h x (by simp) hp]
      omega
    · have hp' : p x = false := Bool.not_eq_true _ ▸ eq_false_of_ne_true hp
      simp [hp']
      omega

/-- C1: on a registry state whose versions are pairwise distinct (the
version string is the key of the patch API) and in which at most one
entry carries the "latest" tag, a successful non-dry-run rollback
leaves at most one eligible non-quarantined entry carrying "latest",
never issues a "latest" tag-patch for a version that was quarantined
as read at validation, and never promotes the rolled-back version
itself. -/
theorem claim_C1_latest_tag_invariant :
    ∀ (entries : List RawEntry) (target : String),
    (entries.map (fun e => e.version)).Nodup →
    entries.countP (fun e => e.tag.getD "" == LATEST_TAG) ≤ 1 →
    (rollback_in_prod entries target false true).2 = Except.ok () →
    ((apply_calls entries (rollback_in_prod entries target false true).1).countP
      (fun e => (py_upper e.release_status == TRUSTED ||
          py_upper e.release_status == RELEASED) &&
        !(e.tag.getD "" == QUARANTINE_TAG) && (e.tag.getD "" == LATEST_TAG)) ≤ 1) ∧
    (∀ v k pv, Call.patch v LATEST_TAG k pv ∈ (rollback_in_prod entries target false true).1 →
      v ≠ target ∧
      ∀ e ∈ get_prod_versions entries, e.version = v → e.tag ≠ QUARANTINE_TAG) := by
  intro entries target hnd hone hok
  cases h : dict_get (by_version_of (get_prod_versions entries)) target with
  | none =>
    rw [rollback_notfound h false true] at hok
    exact absurd hok (by simp)
  | some tgt =>
    have hrw := rollback_found_wet_ok h
    obtain ⟨htgt_mem, htgt_ver⟩ := by_version_get_mem h
    have htgtnorm : tgt ∈ norm_entries entries :=
      (get_prod_versions_perm entries).mem_iff.mp htgt_mem
    obtain ⟨rawT, hrawT_mem, hrawT_elig, hrawT_eq⟩ := mem_norm_entries_iff.mp htgtnorm
    have hrawT_ver : rawT.version = target := by
      rw [hrawT_eq] at htgt_ver
      exact htgt_ver
    have hrawT_tag : rawT.tag.getD "" = tgt.tag := by
      rw [hrawT_eq]
    by_cases hl : (tgt.tag == LATEST_TAG) = true
    · rw [if_pos hl] at hrw
      cases hp : pick_next_latest (get_prod_versions entries) target with
      | none =>
        rw [hp] at hrw
        rw [hrw]
        dsimp only
        constructor
        · rw [show apply_calls entries [Call.list, Call.rollback target "PROD",
            Call.patch target QUARANTINE_TAG BACKUP_BEFORE_QUARANTINE tgt.tag] =
            entries.map (fun e => if e.version == target then
              { e with tag := some QUARANTINE_TAG } else e) from rfl,
            List.countP_map]
          refine le_trans (countP_le_countP _ _ entries ?_) hone
          intro a _ hpa
          simp only [Function.comp] at hpa
          by_cases hav : (a.version == target) = true
          · rw [if_pos hav] at hpa
            simp [QUARANTINE_TAG, LATEST_TAG] at hpa
          · rw [if_neg hav] at hpa
            simp only [Bool.and_eq_true] at hpa
            exact hpa.2
        · intro v k pv hv
          simp [LATEST_TAG, QUARANTINE_TAG] at hv
      | some cand =>
        rw [hp] at hrw
        -- facts about the successor
        have hcand : cand.version ≠ target ∧ cand.tag ≠ QUARANTINE_TAG ∧
            cand ∈ get_prod_versions entries := by
          rcases pick_cases (get_prod_versions entries) target with ⟨hn, -⟩ | ⟨e0, q, hval, -, -, hmem, -⟩
          · rw [hn] at hp
            exact absurd hp (by simp)
          · rw [hval] at hp
            have he0 : e0 = cand := by simpa using hp
            subst he0
            have hsv := mem_survivorsOf.mp hmem
            exact ⟨hsv.2.1, hsv.2.2, hsv.1⟩
        rw [hrw]
        dsimp only
        constructor
        · rw [show apply_calls entries [Call.list, Call.rollback target "PROD",
            Call.patch target QUARANTINE_TAG BACKUP_BEFORE_QUARANTINE tgt.tag,
            Call.patch cand.version LATEST_TAG BACKUP_BEFORE_LATEST cand.tag] =
            (entries.map (fun e => if e.version == target then
              { e with tag := some QUARANTINE_TAG } else e)).map
              (fun e => if e.version == cand.version then
                { e with tag := some LATEST_TAG } else e) from rfl,
            List.countP_map, List.countP_map]
          refine le_trans (countP_le_add (fun e => e.version == cand.version)
            (fun e => (e.tag.getD "" == LATEST_TAG) && !(e.version == target)) _ entries ?_) ?_
          · intro a _ hra
            simp only [Function.comp] at hra
            by_cases hac : (a.version == cand.version) = true
            · exact Or.inl hac
            · right
              have hfqv : (if (a.version == target) = true then
                  { a with tag := some QUARANTINE_TAG } else a).version = a.version := by
                split <;> rfl
              rw [if_neg (by rw [hfqv]; exact hac)] at hra
              by_cases hav : (a.version == target) = true
              · rw [if_pos hav] at hra
                simp [QUARANTINE_TAG, LATEST_TAG] at hra
              · rw [if_neg hav] at hra
                simp only [Bool.and_eq_true] at hra
                simp [hra.2, hav]
          · have h1 := countP_version_le_one hnd cand.version
            have h2 : entries.countP
                (fun e => (e.tag.getD "" == LATEST_TAG) && !(e.version == target)) = 0 := by
              rw [List.countP_eq_zero]
              intro a ha hpa
              simp only [Bool.and_eq_true, Bool.not_eq_true'] at hpa
              have hrawT_latest : (rawT.tag.getD "" == LATEST_TAG) = true := by
                rw [hrawT_tag]
                exact hl
              have hane : a ≠ rawT := by
                intro he
                rw [he, hrawT_ver] at hpa
                simp at hpa
              have := @two_distinct_countP RawEntry _ entries a rawT
                (fun e => e.tag.getD "" == LATEST_TAG) ha hrawT_mem hane hpa.1 hrawT_latest
              omega
            omega
        · intro v k pv hv
          simp only [List.mem_cons] at hv
          rcases hv with hv | hv | hv | hv | hv
          · exact absurd hv (by simp)
          · exact absurd hv (by simp)
          · exact absurd hv (by simp [LATEST_TAG, QUARANTINE_TAG])
          · have hveq : v = cand.version ∧ k = BACKUP_BEFORE_LATEST ∧ pv = cand.tag := by
              simpa using hv
            obtain ⟨rfl, -, -⟩ := hveq
            refine ⟨hcand.1, ?_⟩
            intro e he hev
            rw [prod_version_inj hnd he hcand.2.2 (by rw [hev])]
            exact hcand.2.1
          · simp at hv
    · rw [if_neg hl] at hrw
      rw [hrw]
      dsimp only
      constructor
      · rw [show apply_calls entries [Call.list, Call.rollback target "PROD",
          Call.patch target QUARANTINE_TAG BACKUP_BEFORE_QUARANTINE tgt.tag] =
          entries.map (fun e => if e.version == target then
            { e with tag := some QUARANTINE_TAG } else e) from rfl,
          List.countP_map]
        refine le_trans (countP_le_countP _ _ entries ?_) hone
        intro a _ hpa
        simp only [Function.comp] at hpa
        by_cases hav : (a.version == target) = true
        · rw [if_pos hav] at hpa
          simp [QUARANTINE_TAG, LATEST_TAG] at hpa
        · rw [if_neg hav] at hpa
          simp only [Bool.and_eq_true] at hpa
          exact hpa.2
      · intro v k pv hv
        simp [LATEST_TAG, QUARANTINE_TAG] at hv

theorem claim_C1_witness :
    (apply_calls
      [⟨"2.0.0", some "latest", "RELEASED"⟩,
       ⟨"1.5.0", some "", "TRUSTED_RELEASE"⟩,
       ⟨"1.0.0", some "quarantine", "RELEASED"⟩]
      (rollback_in_prod
        [⟨"2.0.0", some "latest", "RELEASED"⟩,
         ⟨"1.5.0", some "", "TRUSTED_RELEASE"⟩,
         ⟨"1.0.0", some "quarantine", "RELEASED"⟩] "2.0.0" false true).1).countP
      (fun e => (py_upper e.release_status == TRUSTED ||
          py_upper e.release_status == RELEASED) &&
        !(e.tag.getD "" == QUARANTINE_TAG) && (e.tag.getD "" == LATEST_TAG)) ≤ 1 :=
  (claim_C1_latest_tag_invariant
    [⟨"2.0.0", some "latest", "RELEASED"⟩,
     ⟨"1.5.0", some "", "TRUSTED_RELEASE"⟩,
     ⟨"1.0.0", some "quarantine", "RELEASED"⟩] "2.0.0"
    (by decide) (by decide) (by rfl)).1
